import Mathlib

/-! QAsset: a verification development of `main.go`.

Go strings are modelled as `List Char` (abbreviated `Str`).  Every separator and
every character that the program inspects is ASCII, so reading a string by
characters or by bytes makes no difference to the functions modelled here.

The program calls into the Go standard library (`regexp`, `path/filepath` on a
Unix system, `strconv`, `math/rand`, `os`) and, through `c.FormFile`, into its
multipart reader, which hands over the base name of the file name sent.  Those
functions are embedded following their library implementation; the handlers of
`main.go` are embedded line by line on top of them.
-/

namespace QAsset

/-- Go strings, as lists of characters. -/
abbrev Str := List Char

/-! ## `regexp`: the fragment of RE2 syntax used by `pathRegex` -/

/-- Abstract syntax of the regular expressions the program compiles. -/
inductive Regex where
  /-- Anchor `^` without the multi-line flag: the beginning of the text. -/
  | beginText : Regex
  /-- Anchor `$` without the multi-line flag: the end of the text. -/
  | endText : Regex
  /-- Class `[...]`: a character class, a list of inclusive ranges. -/
  | charClass (ranges : List (Char × Char)) : Regex
  /-- Repetition `r+`: one or more repetitions. -/
  | plus (r : Regex) : Regex
  /-- Sequence `rs`: concatenation. -/
  | concat (r s : Regex) : Regex

/-- Membership of a character in a class given by inclusive ranges. -/
def inRanges (ranges : List (Char × Char)) (c : Char) : Bool :=
  ranges.any fun r => decide (r.1.toNat ≤ c.toNat) && decide (c.toNat ≤ r.2.toNat)

/-- A matcher position: whether we are still at the beginning of the text, and
the text that remains to be read. -/
abbrev Pos := Bool × Str

/-- All positions reachable by applying `step` between one and `fuel` times. -/
def iterate (step : Pos → List Pos) : Nat → Pos → List Pos
  | 0, _ => []
  | fuel + 1, p => step p ++ (step p).flatMap (iterate step fuel)

/-- All positions at which a match of the expression starting at the given
position can end. -/
def Regex.run : Regex → Pos → List Pos
  | .beginText, p => if p.1 then [p] else []
  | .endText, p => if p.2.isEmpty then [p] else []
  | .charClass ranges, p =>
    match p.2 with
    | [] => []
    | c :: rest => if inRanges ranges c then [(false, rest)] else []
  | .plus r, p => iterate (fun q => Regex.run r q) (p.2.length + 1) p
  | .concat r s, p => (Regex.run r p).flatMap (fun q => Regex.run s q)

/-- The start positions of an unanchored search: every suffix of the text, only
the first of which is at the beginning of the text. -/
def startPositions : Bool → Str → List Pos
  | atStart, [] => [(atStart, [])]
  | atStart, c :: rest => (atStart, c :: rest) :: startPositions false rest

/-- The method `(*Regexp).MatchString`: whether the text contains any match. -/
def MatchString (re : Regex) (s : Str) : Bool :=
  (startPositions true s).any fun p => !(re.run p).isEmpty

/-- The compiled `pathRegex`: begin of text, one or more characters of the class
`a-z A-Z 0-9 _ - / \`, end of text. -/
def pathRegex : Regex :=
  .concat .beginText
    (.concat
      (.plus (.charClass
        [('a', 'z'), ('A', 'Z'), ('0', '9'), ('_', '_'), ('-', '-'), ('/', '/'), ('\\', '\\')]))
      .endText)

/-! ## `path/filepath` on Unix -/

/-- The function `os.IsPathSeparator` on Unix: only the forward slash
separates. -/
def isPathSeparator (c : Char) : Bool := c == '/'

/-- The backtracking loop of `Clean` for a `..` element: starting from write
index `w`, step back while `w > dotdot` and the byte at `w` is not a
separator; the result is the new write index. -/
def backtrack (buf : Str) (dotdot : Nat) : Nat → Nat
  | 0 => 0
  | w + 1 =>
    if dotdot < w + 1 && !isPathSeparator (buf.getD (w + 1) '/') then backtrack buf dotdot w
    else w + 1

/-- The main loop of `filepath.Clean`.  The output buffer is the list of bytes
written so far (the write index `w` is its length), `dotdot` is the index where
`..` must stop, and the first list is the unread part of the path.  Every
iteration reads at least one byte, so `fuel` equal to the number of unread
bytes is never exhausted. -/
def cleanLoop (rooted : Bool) : Nat → Str → Str × Nat → Str × Nat
  | 0, _, st => st
  | _ + 1, [], st => st
  | fuel + 1, c :: rest, (out, dotdot) =>
    if isPathSeparator c then
      -- empty path element
      cleanLoop rooted fuel rest (out, dotdot)
    else if c == '.' && (rest.isEmpty || isPathSeparator (rest.headD '/')) then
      -- . element
      cleanLoop rooted fuel rest (out, dotdot)
    else if c == '.' && rest.headD 'x' == '.' &&
        (rest.tail.isEmpty || isPathSeparator (rest.tail.headD '/')) then
      -- .. element: remove to last separator
      if dotdot < out.length then
        -- can backtrack
        cleanLoop rooted fuel rest.tail (out.take (backtrack out dotdot (out.length - 1)), dotdot)
      else if !rooted then
        -- cannot backtrack, but not rooted, so append .. element
        let out1 := if 0 < out.length then out ++ ['/'] else out
        let out2 := out1 ++ ['.', '.']
        cleanLoop rooted fuel rest.tail (out2, out2.length)
      else
        cleanLoop rooted fuel rest.tail (out, dotdot)
    else
      -- real path element: add slash if needed, then copy the element
      let out1 :=
        if (rooted && out.length != 1) || (!rooted && out.length != 0) then out ++ ['/'] else out
      let elem := (c :: rest).takeWhile fun x => !isPathSeparator x
      cleanLoop rooted fuel ((c :: rest).dropWhile fun x => !isPathSeparator x)
        (out1 ++ elem, dotdot)

/-- The function `filepath.Clean` (Unix: there is no volume name). -/
def Clean (path : Str) : Str :=
  match path with
  | [] => ['.']
  | c :: rest =>
    let rooted := isPathSeparator c
    let res :=
      if rooted then cleanLoop rooted rest.length rest (['/'], 1)
      else cleanLoop rooted (c :: rest).length (c :: rest) ([], 0)
    if res.1.length == 0 then ['.'] else res.1

/-- The function `strings.Join` with the separator `/`. -/
def joinSep : List Str → Str
  | [] => []
  | [e] => e
  | e :: es => e ++ '/' :: joinSep es

/-- The function `filepath.Join` (Unix): skip leading empty elements, join the
rest with the separator and clean the result; the empty string if every
element is empty. -/
def Join : List Str → Str
  | [] => []
  | e :: es => if e.isEmpty then Join es else Clean (joinSep (e :: es))

/-- The loop of `filepath.Ext`, with `i + 1` as the recursion argument: scan
backwards from index `i`, stop at a separator, return the suffix starting at a
dot. -/
def extLoop (path : Str) : Nat → Str
  | 0 => []
  | i + 1 =>
    if isPathSeparator (path.getD i '/') then []
    else if path.getD i '/' == '.' then path.drop i
    else extLoop path i

/-- The function `filepath.Ext`: the suffix beginning at the final dot in the
final element of the path; empty if there is no dot. -/
def Ext (path : Str) : Str := extLoop path path.length

/-- The function `filepath.Base` (Unix): `.` for the empty path; otherwise strip
the trailing separators and keep what follows the last separator left, or `/`
if nothing is left. -/
def Base (path : Str) : Str :=
  if path.isEmpty then ['.']
  else
    let stripped := path.reverse.dropWhile isPathSeparator
    let last := (stripped.takeWhile fun x => !isPathSeparator x).reverse
    if last.isEmpty then ['/'] else last

/-! ## `strconv`, `math/rand`, and the ambient sources -/

/-- Decimal digits of a natural number, most significant first, accumulated in
front of `acc`. -/
def formatDigits : Nat → Nat → Str → Str
  | 0, _, acc => acc
  | fuel + 1, n, acc =>
    let acc1 := Char.ofNat (48 + n % 10) :: acc
    if n / 10 = 0 then acc1 else formatDigits fuel (n / 10) acc1

/-- The function `strconv.Itoa`: decimal rendering, with a leading minus sign
for negative numbers. -/
def Itoa (n : Int) : Str :=
  if n < 0 then '-' :: formatDigits (n.natAbs + 1) n.natAbs []
  else formatDigits (n.natAbs + 1) n.natAbs []

/-- The two widths of the Go type `int`. -/
inductive IntSize where
  /-- A 32-bit platform. -/
  | w32 : IntSize
  /-- A 64-bit platform. -/
  | w64 : IntSize
deriving DecidableEq

/-- The number of bits of an `int`. -/
def IntSize.bits : IntSize → Nat
  | .w32 => 32
  | .w64 => 64

/-- The Go conversion `int(x)` of an `int64` to the platform `int`:
two-complement wrap-around at the width of `int`. -/
def toInt (size : IntSize) (x : Int) : Int :=
  (x + 2 ^ (size.bits - 1)) % 2 ^ size.bits - 2 ^ (size.bits - 1)

/-- What a request handler reads from its surroundings: the width of `int`, the
clock (`time.Now().Unix()`) and the process-wide random source, given as the
stream of raw values that successive draws consume. -/
structure Env where
  /-- Width of the platform type `int`. -/
  intSize : IntSize
  /-- The value of `time.Now().Unix()`, an `int64`. -/
  now : Int
  /-- The raw value behind the `i`-th draw of the random source. -/
  raw : Nat → Nat

/-- The call `rand.Intn(n)` for the `i`-th draw: a value in `[0, n)`. -/
def Intn (env : Env) (i n : Nat) : Nat := env.raw i % n

/-- The constant `charset` of `randomString`. -/
def charset : Str := "abcdefghijklmnopqrstuvwxyzABCDEFGHIJKLMNOPQRSTUVWXYZ0123456789".toList

/-- The loop of `randomString` from buffer index `i` with `n` bytes left to
fill: `b[i] = charset[rand.Intn(len(charset))]`.  The result `none` stands for
the index-out-of-range panic of the string indexing. -/
def fillRandom (env : Env) : Nat → Nat → Option Str
  | _, 0 => some []
  | i, n + 1 =>
    match charset.get? (Intn env i charset.length) with
    | none => none
    | some ch =>
      match fillRandom env (i + 1) n with
      | none => none
      | some rest => some (ch :: rest)

/-- The function `randomString`: a buffer of the given length filled with
random bytes of the charset. -/
def randomString (env : Env) (length : Nat) : Option Str := fillRandom env 0 length

/-- The function `qassetSignature` (`none` if `randomString` panics). -/
def qassetSignature (env : Env) (str : Str) : Option Str :=
  let current := Itoa (toInt env.intSize env.now)
  match randomString env 7 with
  | none => none
  | some randStr => some ("cdn-".toList ++ current ++ randStr ++ "-".toList ++ str)

/-- The function `contains`: linear search for a string in a slice. -/
def contains : List Str → Str → Bool
  | [], _ => false
  | a :: arr, str => if a = str then true else contains arr str

/-! ## `os`: a filesystem of named directories and regular files -/

/-- The filesystem as the handlers see it: which (cleaned) paths are
directories and which are regular files.  The working directory `.` and the
root `/` always exist. -/
structure FS where
  /-- The directories. -/
  dirs : List Str
  /-- The regular files. -/
  files : List Str

/-- Whether the path names an existing directory. -/
def FS.isDir (fs : FS) (p : Str) : Bool := p == ['.'] || p == ['/'] || fs.dirs.contains p

/-- Whether the path names an existing regular file. -/
def FS.isFile (fs : FS) (p : Str) : Bool := fs.files.contains p

/-- The function `os.Stat`: succeeds, telling whether the entry is a
directory, exactly when the path exists, as a regular file or as a directory. -/
def Stat (fs : FS) (p : Str) : Except Str Bool :=
  if fs.isDir p then .ok true
  else if fs.isFile p then .ok false
  else .error ("stat ".toList ++ p ++ ": no such file or directory".toList)

/-- The parent of a path as `os.MkdirAll` computes it: drop trailing
separators, then the last element and the separator before it. -/
def parentOf (p : Str) : Str :=
  let q := ((p.reverse.dropWhile isPathSeparator).dropWhile fun x => !isPathSeparator x)
  q.tail.reverse

/-- The function `filepath.Dir`: all but the last element of the path, cleaned. -/
def Dir (p : Str) : Str :=
  Clean (p.reverse.dropWhile fun x => !isPathSeparator x).reverse

/-- The function `os.Mkdir`: the parent must be a directory and the path must
not exist. -/
def Mkdir (fs : FS) (p : Str) : Except Str FS :=
  if fs.isDir p || fs.isFile p then .error ("mkdir ".toList ++ p ++ ": file exists".toList)
  else if fs.isFile (Dir p) then
    .error ("mkdir ".toList ++ p ++ ": not a directory".toList)
  else if !fs.isDir (Dir p) then
    .error ("mkdir ".toList ++ p ++ ": no such file or directory".toList)
  else .ok { fs with dirs := p :: fs.dirs }

/-- The recursion of `os.MkdirAll`: nothing to do for an existing directory, an
error for an existing regular file, otherwise ensure the parent and make the
directory.  The fuel bounds the recursion on ever shorter parents. -/
def mkdirAllLoop : Nat → FS → Str → Except Str FS
  | 0, _, p => .error ("mkdir ".toList ++ p ++ ": path too long".toList)
  | fuel + 1, fs, p =>
    if fs.isDir p then .ok fs
    else if fs.isFile p then .error ("mkdir ".toList ++ p ++ ": not a directory".toList)
    else if 0 < (parentOf p).length then
      match mkdirAllLoop fuel fs (parentOf p) with
      | .error e => .error e
      | .ok fs1 => Mkdir fs1 p
    else Mkdir fs p

/-- The function `os.MkdirAll`, with fuel for one call per byte of the path. -/
def MkdirAll (fs : FS) (p : Str) : Except Str FS := mkdirAllLoop (p.length + 1) fs p

/-- The method `c.SaveFile`, which creates the destination with `os.Create`:
the parent must be an existing directory and the destination must not be a
directory. -/
def SaveFile (fs : FS) (p : Str) : Except Str FS :=
  if fs.isDir p then .error ("open ".toList ++ p ++ ": is a directory".toList)
  else if fs.isFile (Dir p) then
    .error ("open ".toList ++ p ++ ": not a directory".toList)
  else if !fs.isDir (Dir p) then
    .error ("open ".toList ++ p ++ ": no such file or directory".toList)
  else if fs.isFile p then .ok fs
  else .ok { fs with files := p :: fs.files }

/-- The function `os.Remove`: removes a regular file or an empty directory. -/
def Remove (fs : FS) (p : Str) : Except Str FS :=
  if fs.isFile p then .ok { fs with files := fs.files.filter fun f => f != p }
  else if fs.dirs.contains p then
    if (fs.dirs ++ fs.files).any (fun q => q != p && Dir q == p) then
      .error ("remove ".toList ++ p ++ ": directory not empty".toList)
    else .ok { fs with dirs := fs.dirs.filter fun d => d != p }
  else .error ("remove ".toList ++ p ++ ": no such file or directory".toList)

/-! ## The program: globals and request handlers -/

/-- The global `imageDir`. -/
def imageDir : Str := "storage/images".toList

/-- The global `fileDir`. -/
def fileDir : Str := "storage/files".toList

/-- The effect of `init`: `os.MkdirAll` of the two storage roots (errors
ignored, as in the source). -/
def init (fs : FS) : FS :=
  let fs1 := match MkdirAll fs "storage/images".toList with
    | .ok fs1 => fs1
    | .error _ => fs
  match MkdirAll fs1 "storage/files".toList with
  | .ok fs2 => fs2
  | .error _ => fs1

/-- The JSON body and status code a handler answers with. -/
structure Response where
  /-- The HTTP status code. -/
  status : Nat
  /-- The field `success`. -/
  success : Bool
  /-- The field `message`. -/
  message : String
  /-- The field `debug`, when present. -/
  debug : Option Str := none
  /-- The field `filename`, when present. -/
  filename : Option Str := none
  /-- The field `url`, when present. -/
  url : Option Str := none
deriving DecidableEq

/-- The calls into the operating system a handler makes, in order. -/
inductive SysCall where
  /-- A call `os.MkdirAll(path, 0755)`. -/
  | mkdirAll (path : Str) : SysCall
  /-- A call `c.SaveFile(file, path)`. -/
  | saveFile (path : Str) : SysCall
  /-- A call `os.Remove(path)`. -/
  | remove (path : Str) : SysCall
deriving DecidableEq

/-- What running a handler leaves behind: the response, the system calls made
and the filesystem afterwards. -/
structure Outcome where
  /-- The response. -/
  resp : Response
  /-- The system calls made, in order. -/
  calls : List SysCall
  /-- The filesystem after the request. -/
  fs : FS

/-- An upload request as it reaches the handlers in `*fiber.Ctx`. -/
structure UploadCtx where
  /-- Result of `c.BodyParser(&req)`: the field `path`, or `none` on error. -/
  body : Option Str
  /-- The `filename` parameter that the client sent with the form part of the
  given name, or `none` if there is no such part. -/
  sentName : String → Option Str
  /-- The value of `c.Hostname()`. -/
  hostname : Str

/-- The method `c.FormFile(key)`, as the `Filename` of the file header it
returns, or `none` on error.  The multipart reader of the Go library takes a
part with an empty `filename` for a plain value, not a file, and stores
`filepath.Base` of a non-empty one as the `Filename`. -/
def UploadCtx.formFile (c : UploadCtx) (key : String) : Option Str :=
  match c.sentName key with
  | none => none
  | some sent => if sent.isEmpty then none else some (Base sent)

/-- A delete request as the handlers read it from `*fiber.Ctx`: the result of
`c.BodyParser(&req)`, the fields `path` and `filename`, or `none` on error. -/
structure DeleteCtx where
  /-- The parsed fields `(path, filename)`. -/
  body : Option (Str × Str)

/-- The address `fmt.Sprintf("http://%s/%s/%s", host, customPath, filename)` -/
def formatUrl (host customPath filename : Str) : Str :=
  "http://".toList ++ host ++ "/".toList ++ customPath ++ "/".toList ++ filename

/-- The response of fiber's recover middleware to a panicking handler. -/
def panicked (fs : FS) : Outcome :=
  ⟨{ status := 500, success := false, message := "panic" }, [], fs⟩

/-- Lines 131-144 of `uploadImageHandler`: save the file and answer. -/
def uploadImageSave (fs : FS) (calls : List SysCall) (hostname customPath filename : Str) :
    Outcome :=
  match SaveFile fs (Join [imageDir, customPath, filename]) with
  | .error e =>
    ⟨{ status := 500, success := false, message := "unable to upload image", debug := some e },
      calls ++ [.saveFile (Join [imageDir, customPath, filename])], fs⟩
  | .ok fs1 =>
    ⟨{ status := 200, success := true, message := "image has been uploaded successfully",
        filename := some filename, url := some (formatUrl hostname customPath filename) },
      calls ++ [.saveFile (Join [imageDir, customPath, filename])], fs1⟩

/-- The handler `uploadImageHandler` of `POST /upload_image`. -/
def uploadImageHandler (env : Env) (fs : FS) (c : UploadCtx) : Outcome :=
  match c.body with
  | none => ⟨{ status := 400, success := false, message := "invalid request" }, [], fs⟩
  | some reqPath =>
  match c.formFile "image" with
  | none => ⟨{ status := 400, success := false, message := "image is required" }, [], fs⟩
  | some imageFilename =>
  let allowedExtensions : List Str :=
    [".png".toList, ".jpg".toList, ".gif".toList, ".jpeg".toList]
  let ext := Ext imageFilename
  if !contains allowedExtensions ext then
    ⟨{ status := 400, success := false, message := "only images are allowed" }, [], fs⟩
  else
  match qassetSignature env imageFilename with
  | none => panicked fs
  | some filename =>
  let customPath := if reqPath = [] then "images".toList else reqPath
  if customPath ≠ "images".toList then
    if !MatchString pathRegex customPath then
      ⟨{ status := 400, success := false, message := "invalid path" }, [], fs⟩
    else
      match MkdirAll fs (Join [imageDir, customPath]) with
      | .error e =>
        ⟨{ status := 500, success := false, message := "unable to upload image",
            debug := some e }, [.mkdirAll (Join [imageDir, customPath])], fs⟩
      | .ok fs1 =>
        uploadImageSave fs1 [.mkdirAll (Join [imageDir, customPath])] c.hostname customPath
          filename
  else uploadImageSave fs [] c.hostname customPath filename

/-- Lines 191-204 of `uploadFileHandler`: save the file and answer. -/
def uploadFileSave (fs : FS) (calls : List SysCall) (hostname customPath filename : Str) :
    Outcome :=
  match SaveFile fs (Join [fileDir, customPath, filename]) with
  | .error e =>
    ⟨{ status := 500, success := false, message := "unable to upload file", debug := some e },
      calls ++ [.saveFile (Join [fileDir, customPath, filename])], fs⟩
  | .ok fs1 =>
    ⟨{ status := 200, success := true, message := "file has been uploaded successfully",
        filename := some filename, url := some (formatUrl hostname customPath filename) },
      calls ++ [.saveFile (Join [fileDir, customPath, filename])], fs1⟩

/-- The handler `uploadFileHandler` of `POST /upload_file`. -/
def uploadFileHandler (env : Env) (fs : FS) (c : UploadCtx) : Outcome :=
  match c.body with
  | none => ⟨{ status := 400, success := false, message := "invalid request" }, [], fs⟩
  | some reqPath =>
  match c.formFile "file" with
  | none => ⟨{ status := 400, success := false, message := "file is required" }, [], fs⟩
  | some fileFilename =>
  match qassetSignature env fileFilename with
  | none => panicked fs
  | some filename =>
  let customPath := if reqPath = [] then "files".toList else reqPath
  if customPath ≠ "files".toList then
    if !MatchString pathRegex customPath then
      ⟨{ status := 400, success := false, message := "invalid path" }, [], fs⟩
    else
      match MkdirAll fs (Join [fileDir, customPath]) with
      | .error e =>
        ⟨{ status := 500, success := false, message := "unable to upload file",
            debug := some e }, [.mkdirAll (Join [fileDir, customPath])], fs⟩
      | .ok fs1 =>
        uploadFileSave fs1 [.mkdirAll (Join [fileDir, customPath])] c.hostname customPath
          filename
  else uploadFileSave fs [] c.hostname customPath filename

/-- The handler `deleteImageHandler` of `DELETE /delete_image`. -/
def deleteImageHandler (fs : FS) (c : DeleteCtx) : Outcome :=
  match c.body with
  | none => ⟨{ status := 400, success := false, message := "invalid request" }, [], fs⟩
  | some (reqPath, reqFilename) =>
  if reqPath = [] ∨ reqFilename = [] then
    ⟨{ status := 400, success := false, message := "path and filename are required" }, [], fs⟩
  else
  match Remove fs (Join [imageDir, reqPath, reqFilename]) with
  | .error e =>
    ⟨{ status := 500, success := false, message := "unable to delete image", debug := some e },
      [.remove (Join [imageDir, reqPath, reqFilename])], fs⟩
  | .ok fs1 =>
    ⟨{ status := 200, success := true, message := "image has been deleted successfully" },
      [.remove (Join [imageDir, reqPath, reqFilename])], fs1⟩

/-- The handler `deleteFileHandler` of `DELETE /delete_file`. -/
def deleteFileHandler (fs : FS) (c : DeleteCtx) : Outcome :=
  match c.body with
  | none => ⟨{ status := 400, success := false, message := "invalid request" }, [], fs⟩
  | some (reqPath, reqFilename) =>
  if reqPath = [] ∨ reqFilename = [] then
    ⟨{ status := 400, success := false, message := "path and filename are required" }, [], fs⟩
  else
  match Remove fs (Join [fileDir, reqPath, reqFilename]) with
  | .error e =>
    ⟨{ status := 500, success := false, message := "unable to delete file", debug := some e },
      [.remove (Join [fileDir, reqPath, reqFilename])], fs⟩
  | .ok fs1 =>
    ⟨{ status := 200, success := true, message := "file has been deleted successfully" },
      [.remove (Join [fileDir, reqPath, reqFilename])], fs1⟩

/-- The handler `genericHandler` of the catch-all route, as the file name it
hands to `c.SendFile`; the argument is `c.Path()`. -/
def genericHandler (fs : FS) (path : Str) : Str :=
  match Stat fs (Join [imageDir, path]) with
  | .ok _ => Join [imageDir, path]
  | .error _ =>
    match Stat fs (Join [fileDir, path]) with
    | .ok _ => Join [fileDir, path]
    | .error _ => "resources/asset/broken.webp".toList

/-! ## Vocabulary of the statements

What the theorems below say about the program is phrased with the following
definitions; none of them is part of the program.  `splitSep` and `cleanStep`
describe `Clean` element by element, and `cleanLoop_eq_foldl` shows that the
byte loop above computes exactly that. -/

/-- The characters the path whitelist names: ASCII letters, ASCII digits,
underscore, hyphen, forward slash and backslash. -/
def isPathChar (c : Char) : Prop :=
  c.isAlpha = true ∨ c.isDigit = true ∨ c = '_' ∨ c = '-' ∨ c = '/' ∨ c = '\\'

instance (c : Char) : Decidable (isPathChar c) := by
  unfold isPathChar
  infer_instance

/-- The elements of a path: the pieces between separators, empty ones kept. -/
def splitSep : Str → List Str
  | [] => [[]]
  | c :: rest =>
    if isPathSeparator c then [] :: splitSep rest
    else
      match splitSep rest with
      | [] => [[c]]
      | e :: es => (c :: e) :: es

/-- One iteration of the loop of `Clean`, seen as acting on a whole path
element instead of on bytes. -/
def cleanStep (rooted : Bool) (st : Str × Nat) (elem : Str) : Str × Nat :=
  if elem = [] ∨ elem = ['.'] then st
  else if elem = ['.', '.'] then
    if st.2 < st.1.length then
      (st.1.take (backtrack st.1 st.2 (st.1.length - 1)), st.2)
    else if !rooted then
      let out1 := if 0 < st.1.length then st.1 ++ ['/'] else st.1
      (out1 ++ ['.', '.'], (out1 ++ ['.', '.']).length)
    else st
  else
    let out1 :=
      if (rooted && st.1.length != 1) || (!rooted && st.1.length != 0) then st.1 ++ ['/']
      else st.1
    (out1 ++ elem, st.2)

/-- A real path element: not empty, not `.` and not `..`. -/
def isRealElem (e : Str) : Bool := e != [] && e != ['.'] && e != ['.', '.']

/-- The bytes that `Clean` appends for a run of path elements none of which
is `..`, when the buffer is not empty: a separator and the element, for each
element that is neither empty nor `.`. -/
def appendElems (elems : List Str) : Str :=
  elems.flatMap fun e => if e = [] ∨ e = ['.'] then [] else '/' :: e

/-- The location is the directory itself or lies below it: it equals the
directory or starts with the directory followed by a separator. -/
def withinDir (dir loc : Str) : Bool := loc == dir || (dir ++ ['/']).isPrefixOf loc

/-- The location lies strictly below the directory: it is the directory, a
separator, and then one or more real path elements. -/
def strictlyInside (dir loc : Str) : Bool :=
  (dir ++ ['/']).isPrefixOf loc && (splitSep (loc.drop (dir.length + 1))).all isRealElem

/-- The number a string of decimal digits denotes. -/
def decimalValue (s : Str) : Nat :=
  s.foldl (fun acc c => 10 * acc + (c.toNat - 48)) 0

/-- The shape `cdn-<digits><7 alphanumerics>-<original>` of a signed name. -/
def SignatureShape (original out : Str) : Prop :=
  ∃ d r : Str, out = "cdn-".toList ++ d ++ r ++ "-".toList ++ original ∧
    d ≠ [] ∧ (∀ c ∈ d, c.isDigit = true) ∧
    r.length = 7 ∧ (∀ c ∈ r, c.isAlphanum = true)

/-! ## Theorems -/

/-! ### The path validator -/

theorem toNat_eq_iff (c d : Char) : c.toNat = d.toNat ↔ c = d := by
  constructor
  · intro h
    apply Char.ext
    apply UInt32.ext  
    simpa [Char.toNat] using h
  · rintro rfl; rfl

theorem inRanges_pathClass (c : Char) :
    inRanges [('a', 'z'), ('A', 'Z'), ('0', '9'), ('_', '_'), ('-', '-'), ('/', '/'), ('\\', '\\')] c
      = true ↔ isPathChar c := by
  have e1 : c = '_' ↔ c.toNat = 95 := (toNat_eq_iff c '_').symm
  have e2 : c = '-' ↔ c.toNat = 45 := (toNat_eq_iff c '-').symm
  have e3 : c = '/' ↔ c.toNat = 47 := (toNat_eq_iff c '/').symm
  have e4 : c = '\\' ↔ c.toNat = 92 := (toNat_eq_iff c '\\').symm
  unfold isPathChar
  rw [e1, e2, e3, e4]
  simp only [inRanges, List.any_cons, List.any_nil, Char.isAlpha, Char.isUpper, Char.isLower,
    Char.isDigit, Bool.or_eq_true, Bool.and_eq_true, decide_eq_true_eq, Bool.or_false,
    ge_iff_le, UInt32.le_def, Char.toNat, BitVec.le_def]
  have k1 : 'a'.val.toNat = 97 := rfl
  have k2 : 'z'.val.toNat = 122 := rfl
  have k3 : 'A'.val.toNat = 65 := rfl
  have k4 : 'Z'.val.toNat = 90 := rfl
  have k5 : '0'.val.toNat = 48 := rfl
  have k6 : '9'.val.toNat = 57 := rfl
  have k7 : '_'.val.toNat = 95 := rfl
  have k8 : '-'.val.toNat = 45 := rfl
  have k9 : '/'.val.toNat = 47 := rfl
  have k10 : '\\'.val.toNat = 92 := rfl
  have t1 : (UInt32.toBitVec 65).toNat = 65 := rfl
  have t2 : (UInt32.toBitVec 90).toNat = 90 := rfl
  have t3 : (UInt32.toBitVec 97).toNat = 97 := rfl
  have t4 : (UInt32.toBitVec 122).toNat = 122 := rfl
  have t5 : (UInt32.toBitVec 48).toNat = 48 := rfl
  have t6 : (UInt32.toBitVec 57).toNat = 57 := rfl
  have t7 : c.val.toBitVec.toNat = c.val.toNat := rfl
  rw [k1, k2, k3, k4, k5, k6, k7, k8, k9, k10, t1, t2, t3, t4, t5, t6, t7]
  omega


/-- Positions from which the end of the text is reached by reading between one
and `n` characters of the class: the whole remaining text is in the class. -/
theorem iterate_charClass_reaches_end (rs : List (Char × Char)) (n : Nat) (b : Bool) (s : Str) :
    (∃ x ∈ iterate (fun q => Regex.run (.charClass rs) q) n (b, s), x.2 = []) ↔
      s ≠ [] ∧ s.length ≤ n ∧ ∀ c ∈ s, inRanges rs c = true := by
  induction n generalizing b s with
  | zero =>
    simp only [iterate, List.not_mem_nil, false_and, exists_false, Nat.le_zero_eq,
      List.length_eq_zero, false_iff]
    tauto
  | succ n ih =>
    cases s with
    | nil => simp [iterate, Regex.run]
    | cons c t =>
      by_cases hc : inRanges rs c = true
      · have hstep : Regex.run (.charClass rs) (b, c :: t) = [(false, t)] := by
          simp [Regex.run, hc]
        simp only [iterate, hstep, List.flatMap_cons, List.flatMap_nil, List.append_nil,
          List.singleton_append, List.mem_cons, exists_eq_or_imp, ih, ne_eq,
          not_false_eq_true, List.length_cons, Nat.add_le_add_iff_right, forall_eq_or_imp,
          hc, true_and, reduceCtorEq]
        by_cases ht : t = []
        · subst ht; simp
        · simp [ht]
      · have hstep : Regex.run (.charClass rs) (b, c :: t) = [] := by
          simp [Regex.run, hc]
        simp [iterate, hstep, hc]

/-- From a given position, `pathRegex` matches exactly when the position is the
beginning of the text and the text is a non-empty run of class characters. -/
theorem run_pathRegex_ne_nil (b : Bool) (s : Str) :
    (pathRegex.run (b, s)).isEmpty = false ↔
      b = true ∧ s ≠ [] ∧ ∀ c ∈ s, isPathChar c := by
  have key := iterate_charClass_reaches_end
    [('a', 'z'), ('A', 'Z'), ('0', '9'), ('_', '_'), ('-', '-'), ('/', '/'), ('\\', '\\')]
    (s.length + 1) b s
  simp only [inRanges_pathClass] at key
  have hne : ∀ l : List Pos, l.isEmpty = false ↔ ∃ x, x ∈ l := by
    intro l; cases l <;> simp
  rw [hne]
  cases b with
  | false => simp [pathRegex, Regex.run]
  | true =>
    simp only [pathRegex, Regex.run, if_true, List.flatMap_cons, List.flatMap_nil,
      List.append_nil, List.mem_flatMap, true_and]
    constructor
    · rintro ⟨x, q, hq, hx⟩
      have : q.2 = [] := by
        by_contra hq2
        cases hq2' : q.2 with
        | nil => exact hq2 hq2'
        | cons a l => simp [hq2'] at hx
      have := key.mp ⟨q, hq, this⟩
      exact ⟨this.1, this.2.2⟩
    · rintro ⟨h1, h2⟩
      obtain ⟨q, hq, hq2⟩ := key.mpr ⟨h1, by omega, h2⟩
      exact ⟨q, q, hq, by simp [hq2]⟩

/-- Every later start position of the search is past the beginning of the text. -/
theorem startPositions_false (s : Str) : ∀ p ∈ startPositions false s, p.1 = false := by
  induction s with
  | nil => simp [startPositions]
  | cons c t ih =>
    intro p hp
    simp only [startPositions, List.mem_cons] at hp
    rcases hp with rfl | hp
    · rfl
    · exact ih p hp

/-- The search of `pathRegex` succeeds only from the first start position. -/
theorem matchString_pathRegex (s : Str) :
    MatchString pathRegex s = true ↔ s ≠ [] ∧ ∀ c ∈ s, isPathChar c := by
  have hrest : ∀ t : Str, ((startPositions false t).any
      fun p => !(pathRegex.run p).isEmpty) = false := by
    intro t
    rw [List.any_eq_false]
    rintro ⟨b, u⟩ hp
    have hb : b = false := startPositions_false t (b, u) hp
    have := (run_pathRegex_ne_nil b u).not
    simp only [hb, Bool.false_eq_true, false_and, not_false_eq_true, iff_true,
      Bool.not_eq_false] at this
    simpa [hb] using this
  have hfirst := run_pathRegex_ne_nil true s
  cases s with
  | nil =>
    simp only [MatchString, startPositions, List.any_cons, List.any_nil, Bool.or_false]
    simp only [true_and] at hfirst
    simpa using hfirst
  | cons c t =>
    simp only [MatchString, startPositions, List.any_cons, hrest t, Bool.or_false]
    simp only [true_and] at hfirst
    simpa using hfirst

/-- C1. `pathRegex.MatchString` accepts a string exactly when it is non-empty
and each of its characters is an ASCII letter, an ASCII digit, `_`, `-`, `/` or
`\`; so a string containing a dot, a space, a question mark or a newline (a
trailing one included) is rejected, and so is the empty string. -/
theorem C1_path_validator_accepts_iff (s : Str) :
    (MatchString pathRegex s = true ↔ s ≠ [] ∧ ∀ c ∈ s, isPathChar c) ∧
    (('.' ∈ s ∨ ' ' ∈ s ∨ '?' ∈ s ∨ '\n' ∈ s) → MatchString pathRegex s = false) ∧
    MatchString pathRegex (s ++ ['\n']) = false ∧
    MatchString pathRegex [] = false := by
  have hbad : ∀ (t : Str) (c : Char), c ∈ t → ¬ isPathChar c →
      MatchString pathRegex t = false := by
    intro t c hc hn
    rw [← Bool.not_eq_true, matchString_pathRegex]
    rintro ⟨_, hall⟩
    exact hn (hall c hc)
  refine ⟨matchString_pathRegex s, ?_, ?_, ?_⟩
  · rintro (h | h | h | h)
    · exact hbad s _ h (by decide)
    · exact hbad s _ h (by decide)
    · exact hbad s _ h (by decide)
    · exact hbad s _ h (by decide)
  · exact hbad _ '\n' (by simp) (by decide)
  · rw [← Bool.not_eq_true, matchString_pathRegex]; simp

/-! ### `Clean` element by element -/

theorem cleanLoop_nil (rooted : Bool) (fuel : Nat) (st : Str × Nat) :
    cleanLoop rooted fuel [] st = st := by
  cases fuel <;> rfl

theorem splitSep_sep (rest : Str) : splitSep ('/' :: rest) = [] :: splitSep rest := by
  simp [splitSep, isPathSeparator]

theorem splitSep_ne_nil (s : Str) : splitSep s ≠ [] := by
  induction s with
  | nil => simp [splitSep]
  | cons c t ih =>
    unfold splitSep
    split
    · simp
    · split <;> simp

theorem splitSep_cons_of_not_sep (c : Char) (rest : Str) (hc : isPathSeparator c = false) :
    splitSep (c :: rest) = (c :: (splitSep rest).headD []) :: (splitSep rest).tail := by
  have := splitSep_ne_nil rest
  rw [splitSep]
  simp only [hc, Bool.false_eq_true, if_false]
  cases h : splitSep rest with
  | nil => exact absurd h this
  | cons e es => simp

theorem splitSep_takeWhile (s : Str) :
    splitSep s = (s.takeWhile fun x => !isPathSeparator x) ::
      (match s.dropWhile fun x => !isPathSeparator x with
        | [] => []
        | _ :: r => splitSep r) := by
  induction s with
  | nil => simp [splitSep]
  | cons c t ih =>
    by_cases hc : isPathSeparator c = true
    · simp [splitSep, hc, List.takeWhile, List.dropWhile]
    · simp only [Bool.not_eq_true] at hc
      rw [splitSep_cons_of_not_sep c t hc, ih]
      simp [List.takeWhile, List.dropWhile, hc]

theorem length_dropWhile_le (p : Char → Bool) (s : Str) : (s.dropWhile p).length ≤ s.length := by
  induction s with
  | nil => simp
  | cons c t ih =>
    simp only [List.dropWhile]
    split
    · simp only [List.length_cons]; omega
    · simp

theorem foldl_splitSep_dropWhile (rooted : Bool) (st : Str × Nat) (s : Str) :
    (splitSep (s.dropWhile fun x => !isPathSeparator x)).foldl (cleanStep rooted) st =
      (match s.dropWhile fun x => !isPathSeparator x with
        | [] => []
        | _ :: r => splitSep r).foldl (cleanStep rooted) st := by
  cases h : s.dropWhile fun x => !isPathSeparator x with
  | nil => simp [splitSep, cleanStep]
  | cons x r =>
    have hx : isPathSeparator x = true := by
      have := List.head_dropWhile_not (fun x => !isPathSeparator x) s (by simp [h])
      simpa [h] using this
    simp [splitSep, hx, cleanStep]

theorem foldl_splitSep_eq (rooted : Bool) (st : Str × Nat) (s : Str) :
    (splitSep s).foldl (cleanStep rooted) st =
      (splitSep (s.dropWhile fun x => !isPathSeparator x)).foldl (cleanStep rooted)
        (cleanStep rooted st (s.takeWhile fun x => !isPathSeparator x)) := by
  rw [foldl_splitSep_dropWhile]
  conv_lhs => rw [splitSep_takeWhile s]
  rfl

theorem cleanLoop_eq_foldl (rooted : Bool) (fuel : Nat) :
    ∀ (path : Str) (st : Str × Nat), path.length ≤ fuel →
      cleanLoop rooted fuel path st = (splitSep path).foldl (cleanStep rooted) st := by
  induction fuel with
  | zero =>
    intro path st h
    have : path = [] := List.eq_nil_of_length_eq_zero (by omega)
    subst this
    simp [cleanLoop, splitSep, cleanStep]
  | succ fuel ih =>
    intro path st h
    cases path with
    | nil => simp [cleanLoop, splitSep, cleanStep]
    | cons c rest =>
      obtain ⟨out, dotdot⟩ := st
      simp only [List.length_cons, Nat.add_le_add_iff_right] at h
      by_cases hsep : isPathSeparator c = true
      · have hc : c = '/' := by simpa [isPathSeparator] using hsep
        subst hc
        rw [cleanLoop]
        simp only [hsep, if_true]
        rw [ih rest _ h, splitSep_sep]
        simp [cleanStep]
      · simp only [Bool.not_eq_true] at hsep
        rw [foldl_splitSep_eq]
        have htw : ((c :: rest).takeWhile fun x => !isPathSeparator x) =
            c :: rest.takeWhile fun x => !isPathSeparator x := by
          simp [List.takeWhile, hsep]
        have hdw : ((c :: rest).dropWhile fun x => !isPathSeparator x) =
            rest.dropWhile fun x => !isPathSeparator x := by
          simp [List.dropWhile, hsep]
        have hlen := length_dropWhile_le (fun x => !isPathSeparator x) rest
        have hreal : ∀ (elem : Str), isRealElem elem = true →
            cleanStep rooted (out, dotdot) elem =
              ((if (rooted && out.length != 1) || (!rooted && out.length != 0)
                then out ++ ['/'] else out) ++ elem, dotdot) := by
          intro elem he
          simp only [isRealElem, Bool.and_eq_true, bne_iff_ne, ne_eq] at he
          simp [cleanStep, he.1.1, he.1.2, he.2]
        -- the three kinds of element that can start here
        have hcases : (c = '.' ∧ (rest = [] ∨ ∃ r, rest = '/' :: r)) ∨
            (c = '.' ∧ (rest = ['.'] ∨ ∃ r, rest = '.' :: '/' :: r)) ∨
            (isRealElem (c :: rest.takeWhile fun x => !isPathSeparator x) = true ∧
              (c == '.' && (rest.isEmpty || isPathSeparator (rest.headD '/'))) = false ∧
              (c == '.' && rest.headD 'x' == '.' &&
                (rest.tail.isEmpty || isPathSeparator (rest.tail.headD '/'))) = false) := by
          by_cases hdot : c = '.'
          · subst hdot
            rcases rest with _ | ⟨d, rest2⟩
            · left; simp
            · by_cases hd : d = '/'
              · left; subst hd; simp
              · by_cases hd2 : d = '.'
                · subst hd2
                  rcases rest2 with _ | ⟨e, rest3⟩
                  · right; left; simp
                  · by_cases he : e = '/'
                    · right; left; subst he; simp
                    · right; right
                      have he1 : (e == '/') = false := by simpa using he
                      simp [isRealElem, List.takeWhile, isPathSeparator, he1]
                · right; right
                  have hd1 : (d == '/') = false := by simpa using hd
                  simp [isRealElem, List.takeWhile, isPathSeparator, hd1, hd2]
          · right; right
            simp [isRealElem, hdot]
        rcases hcases with ⟨rfl, hr⟩ | ⟨rfl, hr⟩ | ⟨hre, h1, h2⟩
        · rcases hr with rfl | ⟨r, rfl⟩
          · simp [cleanLoop, cleanLoop_nil, isPathSeparator, splitSep, cleanStep]
          · rw [cleanLoop]
            simp only [isPathSeparator, List.takeWhile, List.dropWhile]
            simp only [show ('.' == '/') = false by decide, show ('/' == '/') = true by decide,
              Bool.false_eq_true, if_false, List.isEmpty_cons, List.headD_cons, Bool.or_true,
              Bool.and_true, beq_self_eq_true, if_true, Bool.not_false, Bool.not_true]
            rw [ih _ _ h]
            simp [cleanStep]
        · have hstep : ∀ next : Str, next.length ≤ fuel →
              (if dotdot < out.length then
                cleanLoop rooted fuel next
                  (out.take (backtrack out dotdot (out.length - 1)), dotdot)
              else if (!rooted) = true then
                cleanLoop rooted fuel next
                  ((if 0 < out.length then out ++ ['/'] else out) ++ ['.', '.'],
                    ((if 0 < out.length then out ++ ['/'] else out) ++ ['.', '.']).length)
              else cleanLoop rooted fuel next (out, dotdot)) =
              (splitSep next).foldl (cleanStep rooted)
                (cleanStep rooted (out, dotdot) ['.', '.']) := by
            intro next hn
            simp only [cleanStep]
            split
            · simp [ih _ _ hn]
            · split
              · simp [ih _ _ hn, *]
              · simp [ih _ _ hn, *]
          rcases hr with rfl | ⟨r, rfl⟩
          · rw [cleanLoop]
            simp only [isPathSeparator, List.takeWhile, List.dropWhile]
            simp only [show ('.' == '/') = false by decide, show ('/' == '/') = true by decide,
              Bool.false_eq_true, if_false, List.isEmpty_cons, List.headD_cons, Bool.or_true,
              Bool.and_true, beq_self_eq_true, if_true, Bool.not_false, Bool.not_true,
              List.tail_cons, List.isEmpty_nil, Bool.true_or, List.headD_nil, Bool.or_false,
              Bool.and_false, Bool.true_and]
            exact hstep [] (by simp)
          · rw [cleanLoop]
            simp only [isPathSeparator, List.takeWhile, List.dropWhile]
            simp only [show ('.' == '/') = false by decide, show ('/' == '/') = true by decide,
              Bool.false_eq_true, if_false, List.isEmpty_cons, List.headD_cons, Bool.or_true,
              Bool.and_true, beq_self_eq_true, if_true, Bool.not_false, Bool.not_true,
              List.tail_cons, List.isEmpty_nil, Bool.true_or, List.headD_nil, Bool.or_false,
              Bool.and_false, Bool.true_and]
            exact hstep ('/' :: r) (by simp only [List.length_cons] at h ⊢; omega)
        · rw [cleanLoop]
          simp only [hsep, Bool.false_eq_true, if_false, h1, h2]
          rw [htw, hreal _ hre, hdw] at *
          rw [ih _ _ (by omega)]

theorem splitSep_append_sep (a b : Str) :
    splitSep (a ++ '/' :: b) = splitSep a ++ splitSep b := by
  induction a with
  | nil => simp [splitSep, isPathSeparator]
  | cons c t ih =>
    by_cases hc : isPathSeparator c = true
    · simp [splitSep, hc, ih]
    · simp only [Bool.not_eq_true] at hc
      rw [List.cons_append, splitSep_cons_of_not_sep _ _ hc, splitSep_cons_of_not_sep _ _ hc, ih]
      cases h : splitSep t with
      | nil => exact absurd h (splitSep_ne_nil t)
      | cons e es => simp

theorem Clean_of_not_rooted (c : Char) (rest : Str) (hc : isPathSeparator c = false) :
    Clean (c :: rest) =
      if ((splitSep (c :: rest)).foldl (cleanStep false) ([], 0)).1.length == 0 then ['.']
      else ((splitSep (c :: rest)).foldl (cleanStep false) ([], 0)).1 := by
  simp only [Clean, hc, Bool.false_eq_true, if_false]
  rw [cleanLoop_eq_foldl false _ _ _ (Nat.le_refl _)]

theorem foldl_cleanStep_of_no_dotdot (elems : List Str) (out : Str) (dotdot : Nat)
    (hout : out ≠ []) (h : ∀ e ∈ elems, e ≠ ['.', '.']) :
    elems.foldl (cleanStep false) (out, dotdot) = (out ++ appendElems elems, dotdot) := by
  induction elems generalizing out with
  | nil => simp [appendElems]
  | cons e es ih =>
    have he : e ≠ ['.', '.'] := h e (by simp)
    have hes : ∀ x ∈ es, x ≠ ['.', '.'] := fun x hx => h x (by simp [hx])
    have hlen : out.length ≠ 0 := by
      intro h0; exact hout (List.eq_nil_of_length_eq_zero h0)
    by_cases hskip : e = [] ∨ e = ['.']
    · simp only [List.foldl_cons]
      rw [show cleanStep false (out, dotdot) e = (out, dotdot) by simp [cleanStep, hskip]]
      rw [ih out hout hes]
      simp [appendElems, hskip]
    · simp only [List.foldl_cons]
      rw [show cleanStep false (out, dotdot) e = (out ++ '/' :: e, dotdot) by
        simp [cleanStep, hskip, he, hlen]]
      rw [ih _ (by simp) hes]
      simp [appendElems, hskip]

/-- A directory name that `Clean` leaves alone and that `..` cannot climb out
of by itself: relative, and rebuilt unchanged by the loop of `Clean`. -/
theorem Clean_under_root (root rest : Str) (hne : root ≠ [])
    (hrel : isPathSeparator (root.headD '/') = false)
    (hroot : (splitSep root).foldl (cleanStep false) ([], 0) = (root, 0))
    (h : ∀ e ∈ splitSep rest, e ≠ ['.', '.']) :
    Clean (root ++ '/' :: rest) = root ++ appendElems (splitSep rest) := by
  cases root with
  | nil => exact absurd rfl hne
  | cons c t =>
    simp only [List.headD_cons] at hrel
    rw [List.cons_append, Clean_of_not_rooted c _ hrel, ← List.cons_append, splitSep_append_sep,
      List.foldl_append, hroot, foldl_cleanStep_of_no_dotdot _ _ _ hne h]
    simp

theorem imageDir_clean : (splitSep imageDir).foldl (cleanStep false) ([], 0) = (imageDir, 0) := by
  decide

theorem fileDir_clean : (splitSep fileDir).foldl (cleanStep false) ([], 0) = (fileDir, 0) := by
  decide

/-! ### Sub-paths under a category root -/

theorem mem_of_mem_splitSep (s : Str) : ∀ e ∈ splitSep s, ∀ c ∈ e, c ∈ s ∧ c ≠ '/' := by
  induction s with
  | nil => simp [splitSep]
  | cons a t ih =>
    by_cases ha : isPathSeparator a = true
    · intro e he c hc
      simp only [splitSep, ha, if_true, List.mem_cons] at he
      rcases he with rfl | he
      · simp at hc
      · exact ⟨List.mem_cons_of_mem _ (ih e he c hc).1, (ih e he c hc).2⟩
    · simp only [Bool.not_eq_true] at ha
      have ha2 : a ≠ '/' := by
        intro h; subst h; simp [isPathSeparator] at ha
      intro e he c hc
      rw [splitSep_cons_of_not_sep a t ha] at he
      cases hs : splitSep t with
      | nil => exact absurd hs (splitSep_ne_nil t)
      | cons e0 es =>
        rw [hs] at he ih
        simp only [List.headD_cons, List.tail_cons, List.mem_cons] at he
        rcases he with rfl | he
        · simp only [List.mem_cons] at hc
          rcases hc with rfl | hc
          · exact ⟨by simp, ha2⟩
          · exact ⟨List.mem_cons_of_mem _ (ih e0 (by simp) c hc).1, (ih e0 (by simp) c hc).2⟩
        · exact ⟨List.mem_cons_of_mem _ (ih e (by simp [he]) c hc).1, (ih e (by simp [he]) c hc).2⟩

theorem no_dotdot_of_no_dot (s : Str) (h : '.' ∉ s) : ∀ e ∈ splitSep s, e ≠ ['.', '.'] := by
  intro e he heq
  subst heq
  exact h (mem_of_mem_splitSep s _ he '.' (by simp)).1

theorem appendElems_nil_or_sep (elems : List Str) :
    appendElems elems = [] ∨ ∃ t, appendElems elems = '/' :: t := by
  induction elems with
  | nil => left; rfl
  | cons e es ih =>
    by_cases hskip : e = [] ∨ e = ['.']
    · simpa [appendElems, hskip] using ih
    · right
      exact ⟨e ++ appendElems es, by simp [appendElems, hskip]⟩

theorem withinDir_append (dir tail : Str) (h : tail = [] ∨ ∃ t, tail = '/' :: t) :
    withinDir dir (dir ++ tail) = true := by
  rcases h with rfl | ⟨t, rfl⟩
  · simp [withinDir]
  · simp only [withinDir, Bool.or_eq_true]
    right
    rw [List.isPrefixOf_iff_prefix]
    exact ⟨t, by simp⟩

theorem Join_two (root p : Str) (hne : root ≠ []) :
    Join [root, p] = Clean (root ++ '/' :: p) := by
  cases root with
  | nil => exact absurd rfl hne
  | cons c t => simp [Join, joinSep]

theorem Join_three (root p f : Str) (hne : root ≠ []) :
    Join [root, p, f] = Clean (root ++ '/' :: (p ++ '/' :: f)) := by
  cases root with
  | nil => exact absurd rfl hne
  | cons c t => simp [Join, joinSep]

theorem not_dot_of_isPathChar (c : Char) (h : isPathChar c) : c ≠ '.' := by
  rintro rfl
  revert h
  decide

/-- C2. A sub-path that an upload handler lets through, the category default
or one the path validator accepts (these are the sub-paths with which
`uploadImageHandler_cases` and `uploadFileHandler_cases` reach the system
calls), contains no dot, so none of its elements is `..`, and joining it to
either category root gives the root itself or a location below it; this covers
sub-paths that start with a separator or consist of separators only. -/
theorem C2_whitelist_confines_subpath (p : Str)
    (h : p = "images".toList ∨ p = "files".toList ∨ MatchString pathRegex p = true) :
    '.' ∉ p ∧ (∀ e ∈ splitSep p, e ≠ ['.', '.']) ∧
      withinDir imageDir (Join [imageDir, p]) = true ∧
      withinDir fileDir (Join [fileDir, p]) = true := by
  have hacc : MatchString pathRegex p = true := by
    rcases h with rfl | rfl | h
    · decide
    · decide
    · exact h
  have hdot : '.' ∉ p := by
    intro hmem
    exact not_dot_of_isPathChar _ (((matchString_pathRegex p).mp hacc).2 _ hmem) rfl
  have hdd := no_dotdot_of_no_dot p hdot
  refine ⟨hdot, hdd, ?_, ?_⟩
  · rw [Join_two _ _ (by decide),
      Clean_under_root imageDir p (by decide) (by decide) imageDir_clean hdd]
    exact withinDir_append _ _ (appendElems_nil_or_sep _)
  · rw [Join_two _ _ (by decide),
      Clean_under_root fileDir p (by decide) (by decide) fileDir_clean hdd]
    exact withinDir_append _ _ (appendElems_nil_or_sep _)

/-- C2 at a sub-path made of separators only. -/
theorem C2_whitelist_confines_subpath_witness :
    '.' ∉ "//".toList ∧ (∀ e ∈ splitSep "//".toList, e ≠ ['.', '.']) ∧
      withinDir imageDir (Join [imageDir, "//".toList]) = true ∧
      withinDir fileDir (Join [fileDir, "//".toList]) = true :=
  C2_whitelist_confines_subpath "//".toList (Or.inr (Or.inr (by decide)))

/-! ### The filename signer -/

theorem charset_length : charset.length = 62 := by decide

theorem charset_alphanum : ∀ c ∈ charset, c.isAlphanum = true := by decide

theorem Intn_lt (env : Env) (i n : Nat) (hn : 0 < n) : Intn env i n < n :=
  Nat.mod_lt _ hn

theorem fillRandom_spec (env : Env) (n : Nat) :
    ∀ i, ∃ r, fillRandom env i n = some r ∧ r.length = n ∧ ∀ c ∈ r, c ∈ charset := by
  induction n with
  | zero => intro i; exact ⟨[], rfl, rfl, by simp⟩
  | succ n ih =>
    intro i
    obtain ⟨r, hr, hlen, hmem⟩ := ih (i + 1)
    have hlt : Intn env i charset.length < charset.length :=
      Intn_lt env i _ (by rw [charset_length]; omega)
    refine ⟨charset.get ⟨_, hlt⟩ :: r, ?_, by simp [hlen], ?_⟩
    · have hget : charset[Intn env i charset.length]? =
          some (charset.get ⟨_, hlt⟩) := by
        rw [List.getElem?_eq_getElem hlt]; rfl
      simp only [fillRandom, List.get?_eq_getElem?, hget, hr]
    · intro c hc
      simp only [List.mem_cons] at hc
      rcases hc with rfl | hc
      · exact List.get_mem _ _ _
      · exact hmem c hc

theorem digit_char_facts : ∀ d, d < 10 →
    (Char.ofNat (48 + d)).isDigit = true ∧ (Char.ofNat (48 + d)).toNat - 48 = d := by
  decide

theorem formatDigits_chars (fuel n : Nat) (acc : Str) :
    ∀ c ∈ formatDigits fuel n acc, c.isDigit = true ∨ c ∈ acc := by
  induction fuel generalizing n acc with
  | zero => intro c hc; right; simpa [formatDigits] using hc
  | succ fuel ih =>
    intro c hc
    have hd := (digit_char_facts (n % 10) (Nat.mod_lt _ (by omega))).1
    simp only [formatDigits] at hc
    split at hc
    · simp only [List.mem_cons] at hc
      rcases hc with rfl | hc
      · left; exact hd
      · right; exact hc
    · rcases ih _ _ c hc with h | h
      · left; exact h
      · simp only [List.mem_cons] at h
        rcases h with rfl | h
        · left; exact hd
        · right; exact h

theorem formatDigits_ne_nil (fuel n : Nat) (acc : Str) (hf : 0 < fuel) :
    formatDigits fuel n acc ≠ [] := by
  induction fuel generalizing n acc with
  | zero => omega
  | succ fuel ih =>
    simp only [formatDigits]
    split
    · simp
    · cases fuel with
      | zero => simp [formatDigits]
      | succ k => exact ih _ _ (by omega)

theorem formatDigits_value (fuel n : Nat) (acc : Str) (hn : n < 10 ^ fuel) :
    (formatDigits fuel n acc).foldl (fun a c => 10 * a + (c.toNat - 48)) 0 =
      acc.foldl (fun a c => 10 * a + (c.toNat - 48)) n := by
  induction fuel generalizing n acc with
  | zero =>
    have : n = 0 := by simpa using hn
    subst this
    simp [formatDigits]
  | succ fuel ih =>
    have hd := (digit_char_facts (n % 10) (Nat.mod_lt _ (by omega))).2
    simp only [formatDigits]
    split
    · rename_i h0
      have : n % 10 = n := by omega
      rw [this] at hd
      simp only [List.foldl_cons, this, hd]
      simp
    · rw [ih (n / 10) _ (by rw [pow_succ] at hn; omega)]
      simp only [List.foldl_cons, hd]
      congr 1
      omega

theorem Itoa_chars (n : Int) : ∀ c ∈ Itoa n, c.isDigit = true ∨ c = '-' := by
  intro c hc
  unfold Itoa at hc
  split at hc
  · simp only [List.mem_cons] at hc
    rcases hc with rfl | hc
    · right; rfl
    · rcases formatDigits_chars _ _ _ c hc with h | h
      · left; exact h
      · simp at h
  · rcases formatDigits_chars _ _ _ c hc with h | h
    · left; exact h
    · simp at h

theorem Itoa_of_nonneg (n : Int) (h : 0 ≤ n) :
    Itoa n ≠ [] ∧ (∀ c ∈ Itoa n, c.isDigit = true) ∧ (decimalValue (Itoa n) : Int) = n := by
  have hlt : ¬ n < 0 := by omega
  have hpow : n.natAbs < 10 ^ (n.natAbs + 1) :=
    lt_of_lt_of_le (Nat.lt_pow_self (by omega) _) (Nat.pow_le_pow_right (by omega) (by omega))
  refine ⟨?_, ?_, ?_⟩
  · simp only [Itoa, hlt, if_false]
    exact formatDigits_ne_nil _ _ _ (by omega)
  · intro c hc
    simp only [Itoa, hlt, if_false] at hc
    rcases formatDigits_chars _ _ _ c hc with h | h
    · exact h
    · simp at h
  · simp only [Itoa, hlt, if_false, decimalValue]
    rw [formatDigits_value _ _ _ hpow]
    simp only [List.foldl_nil]
    omega

theorem toInt_of_fits (size : IntSize) (x : Int) (h0 : 0 ≤ x) (h1 : x < 2 ^ (size.bits - 1)) :
    toInt size x = x := by
  cases size <;> simp only [toInt, IntSize.bits] at * <;> omega

theorem qassetSignature_eq (env : Env) :
    ∃ r : Str, r.length = 7 ∧ (∀ c ∈ r, c ∈ charset) ∧
      ∀ s, qassetSignature env s =
        some ("cdn-".toList ++ Itoa (toInt env.intSize env.now) ++ r ++ "-".toList ++ s) := by
  obtain ⟨r, hr, hlen, hmem⟩ := fillRandom_spec env 7 0
  exact ⟨r, hlen, hmem, fun s => by simp [qassetSignature, randomString, hr]⟩

theorem extLoop_no_dot (pre s : Str) (hpre : ∀ c ∈ pre, c ≠ '.') :
    ∀ j, j ≤ pre.length → extLoop (pre ++ s) j = [] := by
  intro j
  induction j with
  | zero => intro _; rfl
  | succ j ih =>
    intro hj
    have hlt : j < pre.length := by omega
    have hget : (pre ++ s).getD j '/' = pre.get ⟨j, hlt⟩ := by
      rw [List.getD_append _ _ _ _ hlt, List.getD_eq_getElem _ _ hlt]; rfl
    have hne : pre.get ⟨j, hlt⟩ ≠ '.' := hpre _ (List.get_mem _ _ _)
    simp only [extLoop, hget]
    split
    · rfl
    · have : (pre.get ⟨j, hlt⟩ == '.') = false := by simpa using hne
      simp only [this, Bool.false_eq_true, if_false]
      exact ih (by omega)

theorem extLoop_append (pre s : Str) (hpre : ∀ c ∈ pre, c ≠ '.') :
    ∀ k, extLoop (pre ++ s) (pre.length + k) = extLoop s k := by
  intro k
  induction k with
  | zero => simpa [extLoop] using extLoop_no_dot pre s hpre pre.length (Nat.le_refl _)
  | succ k ih =>
    have hget : (pre ++ s).getD (pre.length + k) '/' = s.getD k '/' := by
      rw [List.getD_append_right _ _ _ _ (by omega)]; simp
    rw [← Nat.add_assoc]
    simp only [extLoop, hget, ih, List.drop_append]

/-- Putting a dot-free string in front of a name does not change its extension. -/
theorem Ext_append (pre s : Str) (hpre : ∀ c ∈ pre, c ≠ '.') : Ext (pre ++ s) = Ext s := by
  simp only [Ext, List.length_append]
  exact extLoop_append pre s hpre s.length

theorem charset_plain : ∀ c ∈ charset, c ≠ '.' ∧ c ≠ '/' := by decide

theorem digit_plain (c : Char) (h : c.isDigit = true ∨ c = '-') : c ≠ '.' ∧ c ≠ '/' := by
  rcases h with h | rfl
  · constructor <;> (rintro rfl; revert h; decide)
  · decide

/-- The part of a signed name in front of the original name has neither a dot
nor a separator, whatever the clock and the random source. -/
theorem signature_front_plain (n : Int) (r : Str) (hr : ∀ c ∈ r, c ∈ charset) :
    ∀ c ∈ "cdn-".toList ++ Itoa n ++ r ++ "-".toList, c ≠ '.' ∧ c ≠ '/' := by
  intro c hc
  simp only [List.mem_append] at hc
  rcases hc with ((hc | hc) | hc) | hc
  · revert c; decide
  · exact digit_plain c (Itoa_chars n c hc)
  · exact charset_plain c (hr c hc)
  · revert c; decide

/-- What the upload handlers and the later theorems need of a signed name:
it is the original name behind a front part that is not empty, starts with `c`
and has neither a dot nor a separator. -/
theorem qassetSignature_front (env : Env) :
    ∃ pre : Str, pre.head? = some 'c' ∧ (∀ c ∈ pre, c ≠ '.' ∧ c ≠ '/') ∧
      ∀ s, qassetSignature env s = some (pre ++ s) := by
  obtain ⟨r, _, hmem, hsig⟩ := qassetSignature_eq env
  refine ⟨"cdn-".toList ++ Itoa (toInt env.intSize env.now) ++ r ++ "-".toList, ?_,
    signature_front_plain _ r hmem, ?_⟩
  · rfl
  · intro s; rw [hsig s]

/-- C4, as amended. For a clock at or after the Unix epoch whose value fits the
platform `int`, every original name (the empty one and names with separators
included) and every random source, `qassetSignature` returns `cdn-`, then the
non-empty decimal digits of the Unix time, then seven characters of the
62-character charset (each index drawn is below 62), then `-`, then the
original name unchanged. -/
theorem C4_signature_shape (env : Env) (s : Str) (h0 : 0 ≤ env.now)
    (hfit : env.now < 2 ^ (env.intSize.bits - 1)) :
    ∃ d r : Str, qassetSignature env s = some ("cdn-".toList ++ d ++ r ++ "-".toList ++ s) ∧
      d ≠ [] ∧ (∀ c ∈ d, c.isDigit = true) ∧ (decimalValue d : Int) = env.now ∧
      r.length = 7 ∧ (∀ c ∈ r, c.isAlphanum = true) ∧
      (∀ i, Intn env i charset.length < 62) ∧
      SignatureShape s ("cdn-".toList ++ d ++ r ++ "-".toList ++ s) := by
  obtain ⟨r, hlen, hmem, hsig⟩ := qassetSignature_eq env
  have hto := toInt_of_fits env.intSize env.now h0 hfit
  obtain ⟨hne, hdig, hval⟩ := Itoa_of_nonneg env.now h0
  rw [hto] at hsig
  have halnum : ∀ c ∈ r, c.isAlphanum = true := fun c hc => charset_alphanum c (hmem c hc)
  refine ⟨Itoa env.now, r, hsig s, hne, hdig, hval, hlen, halnum, ?_, ?_⟩
  · intro i
    have := Intn_lt env i charset.length (by rw [charset_length]; omega)
    rwa [charset_length] at this ⊢
  · exact ⟨Itoa env.now, r, rfl, hne, hdig, hlen, halnum⟩

/-- C4 at a clock of 1700000000 seconds on a 64-bit platform. -/
theorem C4_signature_shape_witness :
    ∃ d r : Str, qassetSignature ⟨.w64, 1700000000, fun i => 7 * i⟩ "a/b.png".toList =
        some ("cdn-".toList ++ d ++ r ++ "-".toList ++ "a/b.png".toList) ∧
      d ≠ [] ∧ (∀ c ∈ d, c.isDigit = true) ∧ (decimalValue d : Int) = 1700000000 ∧
      r.length = 7 ∧ (∀ c ∈ r, c.isAlphanum = true) ∧
      (∀ i, Intn ⟨.w64, 1700000000, fun i => 7 * i⟩ i charset.length < 62) ∧
      SignatureShape "a/b.png".toList ("cdn-".toList ++ d ++ r ++ "-".toList ++ "a/b.png".toList) :=
  C4_signature_shape ⟨.w64, 1700000000, fun i => 7 * i⟩ "a/b.png".toList (by decide) (by decide)

/-- C4 fails as stated for a clock before the Unix epoch: one second before it,
the signed name is `cdn--1aaaaaaa-a`, where a minus sign stands in the place
of the first digit; and on a 32-bit platform the same happens from the year
2038 on, where `int(...)` wraps to a negative number. -/
theorem C4_negative_clock_counterexample :
    qassetSignature ⟨.w64, -1, fun _ => 0⟩ "a".toList = some "cdn--1aaaaaaa-a".toList ∧
      ¬ SignatureShape "a".toList "cdn--1aaaaaaa-a".toList ∧
    qassetSignature ⟨.w32, 2147483648, fun _ => 0⟩ "a".toList =
      some "cdn--2147483648aaaaaaa-a".toList ∧
      ¬ SignatureShape "a".toList "cdn--2147483648aaaaaaa-a".toList := by
  refine ⟨by decide, ?_, by decide, ?_⟩
  · rintro ⟨d, r, heq, hne, hdig, -, -⟩
    cases d with
    | nil => exact hne rfl
    | cons c d =>
      have hc : c = '-' := by
        have := congrArg (fun l => l.getD 4 'x') heq
        simpa using this.symm
      have := hdig c (by simp)
      rw [hc] at this
      revert this; decide
  · rintro ⟨d, r, heq, hne, hdig, -, -⟩
    cases d with
    | nil => exact hne rfl
    | cons c d =>
      have hc : c = '-' := by
        have := congrArg (fun l => l.getD 4 'x') heq
        simpa using this.symm
      have := hdig c (by simp)
      rw [hc] at this
      revert this; decide

/-! ### The upload handlers -/

/-- Every run of `uploadImageHandler` either stops before the save step, with
a status other than 200, or reaches it with an allowed extension, a signed
name and a sub-path that is the default or accepted by the validator (in
which case the directory was made first). -/
theorem uploadImageHandler_cases (env : Env) (fs : FS) (c : UploadCtx) :
    ((uploadImageHandler env fs c).resp.status ≠ 200 ∧
      ∀ loc, SysCall.saveFile loc ∉ (uploadImageHandler env fs c).calls) ∨
    ∃ (reqPath name f p : Str) (fs1 : FS) (calls1 : List SysCall),
      c.body = some reqPath ∧ c.formFile "image" = some name ∧
      contains [".png".toList, ".jpg".toList, ".gif".toList, ".jpeg".toList] (Ext name) = true ∧
      qassetSignature env name = some f ∧
      p = (if reqPath = [] then "images".toList else reqPath) ∧
      ((p = "images".toList ∧ calls1 = [] ∧ fs1 = fs) ∨
        (p ≠ "images".toList ∧ MatchString pathRegex p = true ∧
          calls1 = [.mkdirAll (Join [imageDir, p])] ∧
          MkdirAll fs (Join [imageDir, p]) = .ok fs1)) ∧
      uploadImageHandler env fs c = uploadImageSave fs1 calls1 c.hostname p f := by
  cases hb : c.body with
  | none => left; simp [uploadImageHandler, hb]
  | some reqPath =>
    cases hf : c.formFile "image" with
    | none => left; simp [uploadImageHandler, hb, hf]
    | some name =>
      by_cases hext :
          contains [".png".toList, ".jpg".toList, ".gif".toList, ".jpeg".toList] (Ext name) = true
      · obtain ⟨pre, -, -, hsig⟩ := qassetSignature_front env
        by_cases hp : (if reqPath = [] then "images".toList else reqPath) = "images".toList
        · right
          refine ⟨reqPath, name, pre ++ name, _, fs, [], rfl, rfl, hext, hsig name, rfl,
            Or.inl ⟨hp, rfl, rfl⟩, ?_⟩
          simp only [uploadImageHandler, hb, hf, hext, hsig, hp]
          simp
        · by_cases hm : MatchString pathRegex
              (if reqPath = [] then "images".toList else reqPath) = true
          · cases hmk : MkdirAll fs
                (Join [imageDir, if reqPath = [] then "images".toList else reqPath]) with
            | error e =>
              left
              simp only [uploadImageHandler, hb, hf, hext, hsig, ne_eq, hp, hm, hmk, not_false_eq_true,
                if_true, Bool.not_true, Bool.false_eq_true, if_false]
              simp
            | ok fs1 =>
              right
              refine ⟨reqPath, name, pre ++ name, _, fs1, _, rfl, rfl, hext, hsig name, rfl,
                Or.inr ⟨hp, hm, rfl, hmk⟩, ?_⟩
              simp only [uploadImageHandler, hb, hf, hext, hsig, ne_eq, hp, hm, hmk,
                not_false_eq_true, if_true, Bool.not_true, Bool.false_eq_true, if_false]
          · left
            simp only [uploadImageHandler, hb, hf, hext, hsig, ne_eq, hp, hm, not_false_eq_true,
              if_true, Bool.not_false]
            simp
      · left
        simp only [uploadImageHandler, hb, hf, hext]
        simp

/-- Every run of `uploadFileHandler` either stops before the save step, with a
status other than 200, or reaches it with a signed name and a sub-path that is
the default or accepted by the validator (in which case the directory was
made first). -/
theorem uploadFileHandler_cases (env : Env) (fs : FS) (c : UploadCtx) :
    ((uploadFileHandler env fs c).resp.status ≠ 200 ∧
      ∀ loc, SysCall.saveFile loc ∉ (uploadFileHandler env fs c).calls) ∨
    ∃ (reqPath name f p : Str) (fs1 : FS) (calls1 : List SysCall),
      c.body = some reqPath ∧ c.formFile "file" = some name ∧
      qassetSignature env name = some f ∧
      p = (if reqPath = [] then "files".toList else reqPath) ∧
      ((p = "files".toList ∧ calls1 = [] ∧ fs1 = fs) ∨
        (p ≠ "files".toList ∧ MatchString pathRegex p = true ∧
          calls1 = [.mkdirAll (Join [fileDir, p])] ∧
          MkdirAll fs (Join [fileDir, p]) = .ok fs1)) ∧
      uploadFileHandler env fs c = uploadFileSave fs1 calls1 c.hostname p f := by
  cases hb : c.body with
  | none => left; simp [uploadFileHandler, hb]
  | some reqPath =>
    cases hf : c.formFile "file" with
    | none => left; simp [uploadFileHandler, hb, hf]
    | some name =>
      obtain ⟨pre, -, -, hsig⟩ := qassetSignature_front env
      by_cases hp : (if reqPath = [] then "files".toList else reqPath) = "files".toList
      · right
        refine ⟨reqPath, name, pre ++ name, _, fs, [], rfl, rfl, hsig name, rfl,
          Or.inl ⟨hp, rfl, rfl⟩, ?_⟩
        simp only [uploadFileHandler, hb, hf, hsig, hp]
        simp
      · by_cases hm : MatchString pathRegex
            (if reqPath = [] then "files".toList else reqPath) = true
        · cases hmk : MkdirAll fs
              (Join [fileDir, if reqPath = [] then "files".toList else reqPath]) with
          | error e =>
            left
            simp only [uploadFileHandler, hb, hf, hsig, ne_eq, hp, hm, hmk, not_false_eq_true,
              if_true, Bool.not_true, Bool.false_eq_true, if_false]
            simp
          | ok fs1 =>
            right
            refine ⟨reqPath, name, pre ++ name, _, fs1, _, rfl, rfl, hsig name, rfl,
              Or.inr ⟨hp, hm, rfl, hmk⟩, ?_⟩
            simp only [uploadFileHandler, hb, hf, hsig, ne_eq, hp, hm, hmk,
              not_false_eq_true, if_true, Bool.not_true, Bool.false_eq_true, if_false]
        · left
          simp only [uploadFileHandler, hb, hf, hsig, ne_eq, hp, hm, not_false_eq_true,
            if_true, Bool.not_false]
          simp

theorem contains_iff_mem (arr : List Str) (s : Str) : contains arr s = true ↔ s ∈ arr := by
  induction arr with
  | nil => simp [contains]
  | cons a arr ih =>
    by_cases h : a = s
    · simp [contains, h]
    · have h2 : ¬ s = a := fun e => h e.symm
      simp [contains, h, h2, ih]

theorem uploadImageSave_resp (fs : FS) (calls : List SysCall) (host p f : Str) :
    (uploadImageSave fs calls host p f).resp.status ≠ 400 ∧
      (uploadImageSave fs calls host p f).calls = calls ++ [.saveFile (Join [imageDir, p, f])] ∧
      ((uploadImageSave fs calls host p f).resp.status = 200 →
        (uploadImageSave fs calls host p f).resp.filename = some f ∧
        (uploadImageSave fs calls host p f).resp.url = some (formatUrl host p f) ∧
        SaveFile fs (Join [imageDir, p, f]) = .ok (uploadImageSave fs calls host p f).fs) ∧
      (∀ e, SaveFile fs (Join [imageDir, p, f]) = .error e →
        (uploadImageSave fs calls host p f).resp =
          { status := 500, success := false, message := "unable to upload image",
            debug := some e }) := by
  unfold uploadImageSave
  cases h : SaveFile fs (Join [imageDir, p, f]) <;> simp

theorem uploadFileSave_resp (fs : FS) (calls : List SysCall) (host p f : Str) :
    (uploadFileSave fs calls host p f).resp.status ≠ 400 ∧
      (uploadFileSave fs calls host p f).calls = calls ++ [.saveFile (Join [fileDir, p, f])] ∧
      ((uploadFileSave fs calls host p f).resp.status = 200 →
        (uploadFileSave fs calls host p f).resp.filename = some f ∧
        (uploadFileSave fs calls host p f).resp.url = some (formatUrl host p f) ∧
        SaveFile fs (Join [fileDir, p, f]) = .ok (uploadFileSave fs calls host p f).fs) ∧
      (∀ e, SaveFile fs (Join [fileDir, p, f]) = .error e →
        (uploadFileSave fs calls host p f).resp =
          { status := 500, success := false, message := "unable to upload file",
            debug := some e }) := by
  unfold uploadFileSave
  cases h : SaveFile fs (Join [fileDir, p, f]) <;> simp

theorem uploadImageSave_message (fs : FS) (calls : List SysCall) (host p f : Str) :
    (uploadImageSave fs calls host p f).resp.message ≠ "only images are allowed" := by
  unfold uploadImageSave
  cases SaveFile fs (Join [imageDir, p, f]) <;> simp

theorem uploadFileSave_message (fs : FS) (calls : List SysCall) (host p f : Str) :
    (uploadFileSave fs calls host p f).resp.message ≠ "only images are allowed" := by
  unfold uploadFileSave
  cases SaveFile fs (Join [fileDir, p, f]) <;> simp

theorem uploadImageHandler_message (env : Env) (fs : FS) (c : UploadCtx) (reqPath name : Str)
    (hb : c.body = some reqPath) (hf : c.formFile "image" = some name)
    (hext : contains [".png".toList, ".jpg".toList, ".gif".toList, ".jpeg".toList] (Ext name)
      = true) :
    (uploadImageHandler env fs c).resp.message ≠ "only images are allowed" := by
  obtain ⟨pre, -, -, hsig⟩ := qassetSignature_front env
  by_cases hp : (if reqPath = [] then "images".toList else reqPath) = "images".toList
  · simp only [uploadImageHandler, hb, hf, hext, hsig, ne_eq, hp, not_true_eq_false,
      Bool.not_true, Bool.false_eq_true, if_false]
    exact uploadImageSave_message _ _ _ _ _
  · by_cases hm : MatchString pathRegex
        (if reqPath = [] then "images".toList else reqPath) = true
    · cases hmk : MkdirAll fs
          (Join [imageDir, if reqPath = [] then "images".toList else reqPath]) with
      | error e =>
        simp only [uploadImageHandler, hb, hf, hext, hsig, ne_eq, hp, hm, hmk, not_false_eq_true,
          if_true, Bool.not_true, Bool.false_eq_true, if_false]
        simp
      | ok fs1 =>
        simp only [uploadImageHandler, hb, hf, hext, hsig, ne_eq, hp, hm, hmk,
          not_false_eq_true, if_true, Bool.not_true, Bool.false_eq_true, if_false]
        exact uploadImageSave_message _ _ _ _ _
    · simp only [uploadImageHandler, hb, hf, hext, hsig, ne_eq, hp, hm, not_false_eq_true,
        if_true, Bool.not_false, Bool.not_true, Bool.false_eq_true, if_false]
      simp

theorem uploadFileHandler_message (env : Env) (fs : FS) (c : UploadCtx) :
    (uploadFileHandler env fs c).resp.message ≠ "only images are allowed" := by
  obtain ⟨pre, -, -, hsig⟩ := qassetSignature_front env
  cases hb : c.body with
  | none => simp only [uploadFileHandler, hb]; simp
  | some reqPath =>
    cases hf : c.formFile "file" with
    | none => simp only [uploadFileHandler, hb, hf]; simp
    | some name =>
      by_cases hp : (if reqPath = [] then "files".toList else reqPath) = "files".toList
      · simp only [uploadFileHandler, hb, hf, hsig, ne_eq, hp, not_true_eq_false,
          Bool.not_true, Bool.false_eq_true, if_false]
        exact uploadFileSave_message _ _ _ _ _
      · by_cases hm : MatchString pathRegex
            (if reqPath = [] then "files".toList else reqPath) = true
        · cases hmk : MkdirAll fs
              (Join [fileDir, if reqPath = [] then "files".toList else reqPath]) with
          | error e =>
            simp only [uploadFileHandler, hb, hf, hsig, ne_eq, hp, hm, hmk, not_false_eq_true,
              if_true, Bool.not_true, Bool.false_eq_true, if_false]
            simp
          | ok fs1 =>
            simp only [uploadFileHandler, hb, hf, hsig, ne_eq, hp, hm, hmk,
              not_false_eq_true, if_true, Bool.not_true, Bool.false_eq_true, if_false]
            exact uploadFileSave_message _ _ _ _ _
        · simp only [uploadFileHandler, hb, hf, hsig, ne_eq, hp, hm, not_false_eq_true,
            if_true, Bool.not_false, Bool.not_true, Bool.false_eq_true, if_false]
          simp

theorem uploadFileHandler_bad_request (env : Env) (fs : FS) (c : UploadCtx) (reqPath name : Str)
    (hb : c.body = some reqPath) (hf : c.formFile "file" = some name) :
    (uploadFileHandler env fs c).resp.status = 400 ↔
      (reqPath ≠ [] ∧ reqPath ≠ "files".toList ∧ MatchString pathRegex reqPath = false) := by
  obtain ⟨pre, -, -, hsig⟩ := qassetSignature_front env
  simp only [uploadFileHandler, hb, hf, hsig]
  by_cases h0 : reqPath = []
  · subst h0
    have := (uploadFileSave_resp fs [] c.hostname "files".toList (pre ++ name)).1
    simpa using this
  · simp only [h0, if_false]
    by_cases h1 : reqPath = "files".toList
    · have := (uploadFileSave_resp fs [] c.hostname "files".toList (pre ++ name)).1
      simpa [h1] using this
    · simp only [ne_eq, h1, not_false_eq_true, if_true]
      cases hm : MatchString pathRegex reqPath
      · simp [h0, h1]
      · simp only [Bool.not_true, Bool.false_eq_true, if_false]
        cases hmk : MkdirAll fs (Join [fileDir, reqPath]) with
        | error e => simp
        | ok fs1 =>
          have := (uploadFileSave_resp fs1 [.mkdirAll (Join [fileDir, reqPath])] c.hostname
            reqPath (pre ++ name)).1
          simpa using this

/-- C5. For an image upload whose form parses and whose field `image` is
present, the answer is 400 "only images are allowed" exactly when the extension
of the original name is not one of `.png`, `.jpg`, `.gif`, `.jpeg`, compared
case-sensitively; the check is made before anything is done with the
sub-path, so a rejected extension makes no system call whatever the sub-path
is.  `uploadFileHandler` never answers with that message: with a parsing form
and a field `file` of the same name, it answers 400 only for a sub-path the
validator rejects.  The names `photo.PNG` and `README` are rejected. -/
theorem C5_image_extension_check (env : Env) (fs : FS) (c : UploadCtx) (reqPath name : Str)
    (hb : c.body = some reqPath) (hf : c.formFile "image" = some name) :
    (((uploadImageHandler env fs c).resp.status = 400 ∧
        (uploadImageHandler env fs c).resp.message = "only images are allowed") ↔
      Ext name ∉ [".png".toList, ".jpg".toList, ".gif".toList, ".jpeg".toList]) ∧
    (Ext name ∉ [".png".toList, ".jpg".toList, ".gif".toList, ".jpeg".toList] →
      (uploadImageHandler env fs c).resp =
        { status := 400, success := false, message := "only images are allowed" } ∧
      (uploadImageHandler env fs c).calls = []) ∧
    (∀ c2 : UploadCtx, (uploadFileHandler env fs c2).resp.message ≠ "only images are allowed") ∧
    (∀ c2 : UploadCtx, c2.body = some reqPath → c2.formFile "file" = some name →
      ((uploadFileHandler env fs c2).resp.status = 400 ↔
        (reqPath ≠ [] ∧ reqPath ≠ "files".toList ∧ MatchString pathRegex reqPath = false))) ∧
    Ext "photo.PNG".toList = ".PNG".toList ∧
    ".PNG".toList ∉ [".png".toList, ".jpg".toList, ".gif".toList, ".jpeg".toList] ∧
    Ext "README".toList = [] ∧
    [] ∉ [".png".toList, ".jpg".toList, ".gif".toList, ".jpeg".toList] := by
  have hrej : Ext name ∉ [".png".toList, ".jpg".toList, ".gif".toList, ".jpeg".toList] →
      uploadImageHandler env fs c =
        ⟨{ status := 400, success := false, message := "only images are allowed" }, [], fs⟩ := by
    intro h
    have hext : contains [".png".toList, ".jpg".toList, ".gif".toList, ".jpeg".toList]
        (Ext name) = false := by
      rw [← Bool.not_eq_true, contains_iff_mem]; exact h
    simp only [uploadImageHandler, hb, hf, hext, Bool.not_false, if_true]
  refine ⟨⟨?_, ?_⟩, ?_, uploadFileHandler_message env fs, ?_, by decide, by decide, by decide,
    by decide⟩
  · rintro ⟨-, hmsg⟩ hmem
    exact uploadImageHandler_message env fs c reqPath name hb hf
      ((contains_iff_mem _ _).mpr hmem) hmsg
  · intro h
    rw [hrej h]
    exact ⟨rfl, rfl⟩
  · intro h
    rw [hrej h]
    exact ⟨rfl, rfl⟩
  · intro c2 hb2 hf2
    exact uploadFileHandler_bad_request env fs c2 reqPath name hb2 hf2

/-- C5 at an upload of `notes.txt` with a sub-path the validator would reject. -/
theorem C5_image_extension_check_witness :
    (((uploadImageHandler ⟨.w64, 0, fun _ => 0⟩ ⟨[], []⟩
          ⟨some "../x".toList, fun _ => some "notes.txt".toList, []⟩).resp.status = 400 ∧
        (uploadImageHandler ⟨.w64, 0, fun _ => 0⟩ ⟨[], []⟩
          ⟨some "../x".toList, fun _ => some "notes.txt".toList, []⟩).resp.message =
          "only images are allowed") ↔
      Ext "notes.txt".toList ∉ [".png".toList, ".jpg".toList, ".gif".toList, ".jpeg".toList]) :=
  (C5_image_extension_check ⟨.w64, 0, fun _ => 0⟩ ⟨[], []⟩
    ⟨some "../x".toList, fun _ => some "notes.txt".toList, []⟩ "../x".toList "notes.txt".toList
    rfl rfl).1

/-! ### Where an upload is saved -/

theorem splitSep_append_plain (pre s : Str) (hpre : ∀ c ∈ pre, c ≠ '/') :
    splitSep (pre ++ s) = (pre ++ (splitSep s).headD []) :: (splitSep s).tail := by
  induction pre with
  | nil =>
    cases h : splitSep s with
    | nil => exact absurd h (splitSep_ne_nil s)
    | cons e es => simp [h]
  | cons c t ih =>
    have hc : isPathSeparator c = false := by
      have := hpre c (by simp)
      simpa [isPathSeparator] using this
    rw [List.cons_append, splitSep_cons_of_not_sep _ _ hc,
      ih (fun x hx => hpre x (List.mem_cons_of_mem _ hx))]
    simp

theorem splitSep_plain (e : Str) (h : ∀ c ∈ e, c ≠ '/') : splitSep e = [e] := by
  have := splitSep_append_plain e [] h
  simpa [splitSep] using this

theorem appendElems_of_none_real (elems : List Str) (h1 : ∀ e ∈ elems, e ≠ ['.', '.'])
    (h3 : ∀ e ∈ elems, isRealElem e = false) : appendElems elems = [] := by
  induction elems with
  | nil => rfl
  | cons e es ih =>
    have he := h3 e (by simp)
    have hne := h1 e (by simp)
    have hskip : e = [] ∨ e = ['.'] := by
      by_contra hcon
      push_neg at hcon
      simp [isRealElem, hcon.1, hcon.2, hne] at he
    have := ih (fun x hx => h1 x (by simp [hx])) (fun x hx => h3 x (by simp [hx]))
    simp only [appendElems, List.flatMap_cons, hskip, if_true, List.nil_append]
    exact this

theorem appendElems_split (elems : List Str) (h1 : ∀ e ∈ elems, e ≠ ['.', '.'])
    (h2 : ∀ e ∈ elems, ∀ c ∈ e, c ≠ '/') (h3 : ∃ e ∈ elems, isRealElem e = true) :
    ∃ t, appendElems elems = '/' :: t ∧ splitSep t = elems.filter isRealElem := by
  induction elems with
  | nil => simp at h3
  | cons e es ih =>
    have h1' : ∀ x ∈ es, x ≠ ['.', '.'] := fun x hx => h1 x (by simp [hx])
    have h2' : ∀ x ∈ es, ∀ c ∈ x, c ≠ '/' := fun x hx => h2 x (by simp [hx])
    have hne := h1 e (by simp)
    by_cases hskip : e = [] ∨ e = ['.']
    · have hnr : isRealElem e = false := by
        rcases hskip with rfl | rfl <;> decide
      obtain ⟨x, hx, hxr⟩ := h3
      have hxes : x ∈ es := by
        simp only [List.mem_cons] at hx
        rcases hx with rfl | hx
        · rw [hnr] at hxr; exact absurd hxr (by decide)
        · exact hx
      obtain ⟨t, ht, hs⟩ := ih h1' h2' ⟨x, hxes, hxr⟩
      refine ⟨t, ?_, ?_⟩
      · simpa [appendElems, hskip] using ht
      · simp [List.filter, hnr, hs]
    · have hr : isRealElem e = true := by
        push_neg at hskip
        simp [isRealElem, hskip.1, hskip.2, hne]
      refine ⟨e ++ appendElems es, by simp [appendElems, hskip], ?_⟩
      by_cases hes : ∃ x ∈ es, isRealElem x = true
      · obtain ⟨t, ht, hs⟩ := ih h1' h2' hes
        rw [ht, splitSep_append_sep, splitSep_plain e (h2 e (by simp)), hs]
        simp [List.filter, hr]
      · push_neg at hes
        have hes' : ∀ x ∈ es, isRealElem x = false := fun x hx => by simpa using hes x hx
        rw [appendElems_of_none_real es h1' hes', List.append_nil,
          splitSep_plain e (h2 e (by simp))]
        have : es.filter isRealElem = [] := by
          rw [List.filter_eq_nil_iff]
          intro x hx; simpa using hes x hx
        simp [List.filter, hr, this]

theorem strictlyInside_of_elems (dir : Str) (elems : List Str)
    (h1 : ∀ e ∈ elems, e ≠ ['.', '.']) (h2 : ∀ e ∈ elems, ∀ c ∈ e, c ≠ '/')
    (h3 : ∃ e ∈ elems, isRealElem e = true) :
    strictlyInside dir (dir ++ appendElems elems) = true := by
  obtain ⟨t, ht, hs⟩ := appendElems_split elems h1 h2 h3
  rw [ht]
  simp only [strictlyInside, Bool.and_eq_true]
  constructor
  · rw [List.isPrefixOf_iff_prefix]
    exact ⟨t, by simp⟩
  · have hdrop : (dir ++ '/' :: t).drop (dir.length + 1) = t := by
      rw [show dir ++ '/' :: t = (dir ++ ['/']) ++ t by simp]
      rw [List.drop_left' (by simp)]
    rw [hdrop, hs, List.all_eq_true]
    intro x hx
    exact (List.mem_filter.mp hx).2

/-- The save location of a signed name whose original has no `..` element
after its first element lies strictly below the category root. -/
theorem save_location_inside (root p front name : Str) (hne : root ≠ [])
    (hrel : isPathSeparator (root.headD '/') = false)
    (hroot : (splitSep root).foldl (cleanStep false) ([], 0) = (root, 0))
    (hp : MatchString pathRegex p = true) (hfront : front.head? = some 'c')
    (hplain : ∀ c ∈ front, c ≠ '.' ∧ c ≠ '/')
    (hname : ∀ e ∈ (splitSep name).tail, e ≠ ['.', '.']) :
    strictlyInside root (Join [root, p, front ++ name]) = true := by
  have hdot : '.' ∉ p := fun hmem =>
    not_dot_of_isPathChar _ (((matchString_pathRegex p).mp hp).2 _ hmem) rfl
  have hsplit := splitSep_append_plain front name (fun c hc => (hplain c hc).2)
  have hfirst : front ++ (splitSep name).headD [] ≠ ['.', '.'] := by
    cases front with
    | nil => simp at hfront
    | cons a t =>
      simp only [List.head?_cons, Option.some.injEq] at hfront
      subst hfront
      simp
  have hfirstReal : isRealElem (front ++ (splitSep name).headD []) = true := by
    cases front with
    | nil => simp at hfront
    | cons a t =>
      simp only [List.head?_cons, Option.some.injEq] at hfront
      subst hfront
      simp [isRealElem]
  have hdd : ∀ e ∈ splitSep (p ++ '/' :: (front ++ name)), e ≠ ['.', '.'] := by
    intro e he
    rw [splitSep_append_sep, hsplit, List.mem_append, List.mem_cons] at he
    rcases he with he | rfl | he
    · exact no_dotdot_of_no_dot p hdot e he
    · exact hfirst
    · exact hname e he
  rw [Join_three _ _ _ hne, Clean_under_root root _ hne hrel hroot hdd]
  refine strictlyInside_of_elems root _ hdd
    (fun e he c hc => (mem_of_mem_splitSep _ e he c hc).2) ⟨_, ?_, hfirstReal⟩
  rw [splitSep_append_sep, hsplit]
  simp

/-! ### The resolver -/

theorem Stat_ok_iff (fs : FS) (p : Str) :
    (∃ b, Stat fs p = .ok b) ↔ (fs.isDir p = true ∨ fs.isFile p = true) := by
  unfold Stat
  by_cases hd : fs.isDir p = true
  · simp [hd]
  · by_cases hf : fs.isFile p = true
    · simp [hd, hf]
    · simp [hd, hf]

theorem genericHandler_of_image (fs : FS) (path : Str)
    (h : fs.isDir (Join [imageDir, path]) = true ∨ fs.isFile (Join [imageDir, path]) = true) :
    genericHandler fs path = Join [imageDir, path] := by
  obtain ⟨b, hb⟩ := (Stat_ok_iff fs _).mpr h
  simp [genericHandler, hb]

theorem genericHandler_of_not_image (fs : FS) (path : Str)
    (h1 : fs.isDir (Join [imageDir, path]) = false)
    (h2 : fs.isFile (Join [imageDir, path]) = false) :
    genericHandler fs path =
      if fs.isDir (Join [fileDir, path]) = true ∨ fs.isFile (Join [fileDir, path]) = true
      then Join [fileDir, path] else "resources/asset/broken.webp".toList := by
  have hs : Stat fs (Join [imageDir, path]) =
      .error ("stat ".toList ++ Join [imageDir, path] ++ ": no such file or directory".toList) := by
    simp [Stat, h1, h2]
  simp only [genericHandler, hs]
  by_cases hd : fs.isDir (Join [fileDir, path]) = true
  · simp [Stat, hd]
  · by_cases hf : fs.isFile (Join [fileDir, path]) = true
    · simp [Stat, hd, hf]
    · simp [Stat, hd, hf]

/-- C6, as amended. For every request path and every filesystem, the resolver
decides in strict order on existence as `os.Stat` reports it, for a regular
file or a directory alike: if the path exists under the images root it hands
exactly that location to `SendFile`; else if it exists under the files root,
that location; else the fixed placeholder `resources/asset/broken.webp`.  So a
regular file under the images root is served whatever is under the files
root, a regular file under the files root is served when nothing is at the
path under the images root, and the placeholder is served when nothing is
at the path under either root. -/
theorem C6_resolver_order (fs : FS) (path : Str) :
    ((fs.isDir (Join [imageDir, path]) = true ∨ fs.isFile (Join [imageDir, path]) = true) →
      genericHandler fs path = Join [imageDir, path]) ∧
    (fs.isDir (Join [imageDir, path]) = false → fs.isFile (Join [imageDir, path]) = false →
      (fs.isDir (Join [fileDir, path]) = true ∨ fs.isFile (Join [fileDir, path]) = true) →
      genericHandler fs path = Join [fileDir, path]) ∧
    (fs.isDir (Join [imageDir, path]) = false → fs.isFile (Join [imageDir, path]) = false →
      fs.isDir (Join [fileDir, path]) = false → fs.isFile (Join [fileDir, path]) = false →
      genericHandler fs path = "resources/asset/broken.webp".toList) ∧
    (fs.isFile (Join [imageDir, path]) = true → genericHandler fs path = Join [imageDir, path]) ∧
    (fs.isDir (Join [imageDir, path]) = false → fs.isFile (Join [imageDir, path]) = false →
      fs.isFile (Join [fileDir, path]) = true → genericHandler fs path = Join [fileDir, path]) := by
  refine ⟨genericHandler_of_image fs path, ?_, ?_, ?_, ?_⟩
  · intro h1 h2 h3
    rw [genericHandler_of_not_image fs path h1 h2, if_pos h3]
  · intro h1 h2 h3 h4
    rw [genericHandler_of_not_image fs path h1 h2, if_neg (by simp [h3, h4])]
  · intro h
    exact genericHandler_of_image fs path (Or.inr h)
  · intro h1 h2 h3
    rw [genericHandler_of_not_image fs path h1 h2, if_pos (Or.inr h3)]

/-- C6 fails as stated where a directory stands at the path under the images
root.  With the directory `storage/images/a` (as an image upload to the
sub-path `a` leaves it) and nothing else at that path, a request for `/a` is
answered with that directory, not with the placeholder; and with a regular
file `storage/files/a` besides, the answer is still the directory, not the
file. -/
theorem C6_directory_counterexample :
    (⟨["storage/images/a".toList, "storage/images".toList, "storage/files".toList,
        "storage".toList], []⟩ : FS).isFile (Join [imageDir, "/a".toList]) = false ∧
    (⟨["storage/images/a".toList, "storage/images".toList, "storage/files".toList,
        "storage".toList], []⟩ : FS).isFile (Join [fileDir, "/a".toList]) = false ∧
    genericHandler ⟨["storage/images/a".toList, "storage/images".toList,
        "storage/files".toList, "storage".toList], []⟩ "/a".toList = "storage/images/a".toList ∧
    "storage/images/a".toList ≠ "resources/asset/broken.webp".toList ∧
    (⟨["storage/images/a".toList, "storage/images".toList, "storage/files".toList,
        "storage".toList], ["storage/files/a".toList]⟩ : FS).isFile
      (Join [fileDir, "/a".toList]) = true ∧
    genericHandler ⟨["storage/images/a".toList, "storage/images".toList,
        "storage/files".toList, "storage".toList], ["storage/files/a".toList]⟩ "/a".toList =
      "storage/images/a".toList ∧
    "storage/images/a".toList ≠ Join [fileDir, "/a".toList] := by
  decide

/-! ### The delete handlers -/

theorem deleteImageHandler_calls (fs : FS) (path filename : Str) (hp : path ≠ [])
    (hf : filename ≠ []) :
    (deleteImageHandler fs ⟨some (path, filename)⟩).resp.status ≠ 400 ∧
      (deleteImageHandler fs ⟨some (path, filename)⟩).calls =
        [.remove (Join [imageDir, path, filename])] := by
  simp only [deleteImageHandler, hp, hf, or_self, if_false]
  cases Remove fs (Join [imageDir, path, filename]) <;> simp

theorem deleteFileHandler_calls (fs : FS) (path filename : Str) (hp : path ≠ [])
    (hf : filename ≠ []) :
    (deleteFileHandler fs ⟨some (path, filename)⟩).resp.status ≠ 400 ∧
      (deleteFileHandler fs ⟨some (path, filename)⟩).calls =
        [.remove (Join [fileDir, path, filename])] := by
  simp only [deleteFileHandler, hp, hf, or_self, if_false]
  cases Remove fs (Join [fileDir, path, filename]) <;> simp

/-- Two levels up from a two-element root, a name without a separator is
cleaned to a single element. -/
theorem Join_up_up (root filename : Str) (hne : root ≠ [])
    (hrel : isPathSeparator (root.headD '/') = false)
    (hroot : (splitSep (root ++ "/../..".toList)).foldl (cleanStep false) ([], 0) = ([], 0))
    (hplain : ∀ c ∈ filename, c ≠ '/') :
    ∀ c ∈ Join [root, "../..".toList, filename], c ≠ '/' := by
  rw [Join_three _ _ _ hne]
  cases root with
  | nil => exact absurd rfl hne
  | cons a t =>
    simp only [List.headD_cons] at hrel
    have hassoc : (a :: t) ++ '/' :: ("../..".toList ++ '/' :: filename) =
        a :: ((t ++ "/../..".toList) ++ '/' :: filename) := by
      simp
    have hlist : a :: ((t ++ "/../..".toList) ++ '/' :: filename) =
        ((a :: t) ++ "/../..".toList) ++ '/' :: filename := by
      simp
    rw [hassoc, Clean_of_not_rooted a _ hrel, hlist, splitSep_append_sep, List.foldl_append,
      hroot, splitSep_plain filename hplain]
    simp only [List.foldl_cons, List.foldl_nil, cleanStep]
    intro c hc
    split_ifs at hc <;> simp_all

theorem not_withinDir_of_plain (dir loc : Str) (hdir : '/' ∈ dir) (hloc : ∀ c ∈ loc, c ≠ '/') :
    withinDir dir loc = false := by
  rw [← Bool.not_eq_true]
  simp only [withinDir, Bool.or_eq_true, beq_iff_eq, List.isPrefixOf_iff_prefix]
  rintro (h | ⟨t, ht⟩)
  · subst h; exact hloc _ hdir rfl
  · subst ht
    exact hloc '/' (by simp [hdir]) rfl

theorem uploadImageHandler_rejects_up_up (env : Env) (fs : FS) (c : UploadCtx) (name : Str)
    (hb : c.body = some "../..".toList) (hf : c.formFile "image" = some name)
    (hext : Ext name ∈ [".png".toList, ".jpg".toList, ".gif".toList, ".jpeg".toList]) :
    (uploadImageHandler env fs c).resp =
        { status := 400, success := false, message := "invalid path" } ∧
      (uploadImageHandler env fs c).calls = [] := by
  obtain ⟨front, -, -, hsig⟩ := qassetSignature_front env
  have hext2 := (contains_iff_mem _ _).mpr hext
  have h1 : (if "../..".toList = [] then "images".toList else "../..".toList) = "../..".toList := by
    decide
  have h2 : ¬ "../..".toList = "images".toList := by decide
  have h3 : MatchString pathRegex "../..".toList = false := by decide
  simp only [uploadImageHandler, hb, hf, hext2, hsig, h1, ne_eq, h2, h3, not_false_eq_true,
    if_true, Bool.not_true, Bool.not_false, Bool.false_eq_true, if_false, and_self]

theorem uploadFileHandler_rejects_up_up (env : Env) (fs : FS) (c : UploadCtx) (name : Str)
    (hb : c.body = some "../..".toList) (hf : c.formFile "file" = some name) :
    (uploadFileHandler env fs c).resp =
        { status := 400, success := false, message := "invalid path" } ∧
      (uploadFileHandler env fs c).calls = [] := by
  obtain ⟨front, -, -, hsig⟩ := qassetSignature_front env
  have h1 : (if "../..".toList = [] then "files".toList else "../..".toList) = "../..".toList := by
    decide
  have h2 : ¬ "../..".toList = "files".toList := by decide
  have h3 : MatchString pathRegex "../..".toList = false := by decide
  simp only [uploadFileHandler, hb, hf, hsig, h1, ne_eq, h2, h3, not_false_eq_true,
    if_true, Bool.not_true, Bool.not_false, Bool.false_eq_true, if_false, and_self]

/-- C7. A delete request, for an image or for a file, whose fields `path` and
`filename` are both non-empty is never answered with 400, and the one system
call it makes is the removal of `Join(root, path, filename)`: nothing validates
the two fields.  Some such requests name a location outside the category
root: the path `../..` with any name without a separator, and the name
`../../x` under the default path.  The upload handlers answer the path
`../..` with 400 "invalid path" and make no system call. -/
theorem C7_delete_performs_no_validation :
    (∀ (fs : FS) (path filename : Str), path ≠ [] → filename ≠ [] →
      ((deleteImageHandler fs ⟨some (path, filename)⟩).resp.status ≠ 400 ∧
        (deleteImageHandler fs ⟨some (path, filename)⟩).calls =
          [.remove (Join [imageDir, path, filename])]) ∧
      ((deleteFileHandler fs ⟨some (path, filename)⟩).resp.status ≠ 400 ∧
        (deleteFileHandler fs ⟨some (path, filename)⟩).calls =
          [.remove (Join [fileDir, path, filename])])) ∧
    (∀ filename : Str, (∀ ch ∈ filename, ch ≠ '/') →
      withinDir imageDir (Join [imageDir, "../..".toList, filename]) = false ∧
      withinDir fileDir (Join [fileDir, "../..".toList, filename]) = false) ∧
    (Join [imageDir, "../..".toList, "x".toList] = "x".toList ∧
      Join [imageDir, "images".toList, "../../x".toList] = "storage/x".toList ∧
      withinDir imageDir "storage/x".toList = false ∧
      Join [fileDir, "files".toList, "../../x".toList] = "storage/x".toList ∧
      withinDir fileDir "storage/x".toList = false) ∧
    (∀ (env : Env) (fs : FS) (c : UploadCtx) (name : Str),
      c.body = some "../..".toList → c.formFile "image" = some name →
      Ext name ∈ [".png".toList, ".jpg".toList, ".gif".toList, ".jpeg".toList] →
      (uploadImageHandler env fs c).resp =
          { status := 400, success := false, message := "invalid path" } ∧
        (uploadImageHandler env fs c).calls = []) ∧
    (∀ (env : Env) (fs : FS) (c : UploadCtx) (name : Str),
      c.body = some "../..".toList → c.formFile "file" = some name →
      (uploadFileHandler env fs c).resp =
          { status := 400, success := false, message := "invalid path" } ∧
        (uploadFileHandler env fs c).calls = []) := by
  refine ⟨?_, ?_, by decide, ?_, ?_⟩
  · intro fs path filename hp hf
    exact ⟨deleteImageHandler_calls fs path filename hp hf,
      deleteFileHandler_calls fs path filename hp hf⟩
  · intro filename hplain
    constructor
    · exact not_withinDir_of_plain _ _ (by decide)
        (Join_up_up imageDir filename (by decide) (by decide) (by decide) hplain)
    · exact not_withinDir_of_plain _ _ (by decide)
        (Join_up_up fileDir filename (by decide) (by decide) (by decide) hplain)
  · intro env fs c name hb hf hext
    exact uploadImageHandler_rejects_up_up env fs c name hb hf hext
  · intro env fs c name hb hf
    exact uploadFileHandler_rejects_up_up env fs c name hb hf

/-! ### One location for upload, address, resolver and delete -/

/-- The location the resolver looks up for the path of an upload address is
the location the upload was saved at. -/
theorem Join_url_path (root p f : Str) (hne : root ≠ [])
    (hrel : isPathSeparator (root.headD '/') = false) :
    Join [root, "/".toList ++ p ++ "/".toList ++ f] = Join [root, p, f] := by
  rw [Join_two _ _ hne, Join_three _ _ _ hne]
  cases root with
  | nil => exact absurd rfl hne
  | cons a t =>
    simp only [List.headD_cons] at hrel
    have e1 : (a :: t) ++ '/' :: ("/".toList ++ p ++ "/".toList ++ f) =
        a :: (t ++ '/' :: ('/' :: (p ++ '/' :: f))) := by
      simp
    have e2 : (a :: t) ++ '/' :: (p ++ '/' :: f) = a :: (t ++ '/' :: (p ++ '/' :: f)) := by
      simp
    rw [e1, e2, Clean_of_not_rooted a _ hrel, Clean_of_not_rooted a _ hrel]
    have e3 : splitSep (a :: (t ++ '/' :: ('/' :: (p ++ '/' :: f)))) =
        splitSep (a :: t) ++ [] :: splitSep (p ++ '/' :: f) := by
      rw [← List.cons_append, splitSep_append_sep, splitSep_sep]
    have e4 : splitSep (a :: (t ++ '/' :: (p ++ '/' :: f))) =
        splitSep (a :: t) ++ splitSep (p ++ '/' :: f) := by
      rw [← List.cons_append, splitSep_append_sep]
    have e5 : ∀ st, cleanStep false st [] = st := by
      intro st; simp [cleanStep]
    rw [e3, e4]
    simp only [List.foldl_append, List.foldl_cons, e5]

theorem SaveFile_ok_isFile (fs fs2 : FS) (p : Str) (h : SaveFile fs p = .ok fs2) :
    fs2.isFile p = true := by
  unfold SaveFile at h
  split_ifs at h with h1 h2 h3 h4
  · cases h; exact h4
  · cases h; simp [FS.isFile]

theorem Remove_file (fs : FS) (p : Str) (h : fs.isFile p = true) :
    ∃ fs2, Remove fs p = .ok fs2 ∧ fs2.isFile p = false := by
  refine ⟨{ fs with files := fs.files.filter fun f => f != p }, by simp [Remove, h], ?_⟩
  simp [FS.isFile]

theorem deleteImageHandler_after_save (fs : FS) (p f : Str) (hp : p ≠ []) (hf : f ≠ [])
    (h : fs.isFile (Join [imageDir, p, f]) = true) :
    (deleteImageHandler fs ⟨some (p, f)⟩).resp.status = 200 ∧
      (deleteImageHandler fs ⟨some (p, f)⟩).fs.isFile (Join [imageDir, p, f]) = false := by
  obtain ⟨fs2, hr, hgone⟩ := Remove_file fs _ h
  simp only [deleteImageHandler, hp, hf, or_self, if_false, hr]
  exact ⟨trivial, hgone⟩

theorem deleteFileHandler_after_save (fs : FS) (p f : Str) (hp : p ≠ []) (hf : f ≠ [])
    (h : fs.isFile (Join [fileDir, p, f]) = true) :
    (deleteFileHandler fs ⟨some (p, f)⟩).resp.status = 200 ∧
      (deleteFileHandler fs ⟨some (p, f)⟩).fs.isFile (Join [fileDir, p, f]) = false := by
  obtain ⟨fs2, hr, hgone⟩ := Remove_file fs _ h
  simp only [deleteFileHandler, hp, hf, or_self, if_false, hr]
  exact ⟨trivial, hgone⟩

/-! ### Extensions of saved names -/

/-- C10. Signing keeps the extension: the part of a signed name in front of
the original name has neither a dot nor a separator, so `Ext` of the signed
name is `Ext` of the original, for every original name, clock and random
source.  Hence every name under which `uploadImageHandler` saves a file has
one of the extensions `.png`, `.jpg`, `.gif`, `.jpeg`. -/
theorem C10_signing_preserves_extension (env : Env) :
    (∃ front : Str, (∀ ch ∈ front, ch ≠ '.' ∧ ch ≠ '/') ∧
      ∀ s, qassetSignature env s = some (front ++ s) ∧ Ext (front ++ s) = Ext s) ∧
    (∀ (fs : FS) (c : UploadCtx) (loc : Str),
      SysCall.saveFile loc ∈ (uploadImageHandler env fs c).calls →
      ∃ p name f : Str, c.formFile "image" = some name ∧ qassetSignature env name = some f ∧
        loc = Join [imageDir, p, f] ∧
        Ext f ∈ [".png".toList, ".jpg".toList, ".gif".toList, ".jpeg".toList]) ∧
    (∀ (fs : FS) (c : UploadCtx), (uploadImageHandler env fs c).resp.status = 200 →
      ∃ f : Str, (uploadImageHandler env fs c).resp.filename = some f ∧
        Ext f ∈ [".png".toList, ".jpg".toList, ".gif".toList, ".jpeg".toList]) := by
  obtain ⟨front, -, hplain, hsig⟩ := qassetSignature_front env
  have hExt : ∀ s, Ext (front ++ s) = Ext s :=
    fun s => Ext_append front s (fun ch hch => (hplain ch hch).1)
  have hsigned : ∀ name f, qassetSignature env name = some f →
      contains [".png".toList, ".jpg".toList, ".gif".toList, ".jpeg".toList] (Ext name) = true →
      Ext f ∈ [".png".toList, ".jpg".toList, ".gif".toList, ".jpeg".toList] := by
    intro name f hf hext
    rw [hsig name] at hf
    rw [← Option.some.inj hf, hExt]
    exact (contains_iff_mem _ _).mp hext
  refine ⟨⟨front, hplain, fun s => ⟨hsig s, hExt s⟩⟩, ?_, ?_⟩
  · intro fs c loc hmem
    rcases uploadImageHandler_cases env fs c with ⟨-, hno⟩ |
      ⟨reqPath, name, f, p, fs1, calls1, -, hf, hext, hf2, -, hcase, heq⟩
    · exact absurd hmem (hno loc)
    · rw [heq, (uploadImageSave_resp fs1 calls1 c.hostname p f).2.1] at hmem
      have hloc : loc = Join [imageDir, p, f] := by
        rcases hcase with ⟨-, rfl, -⟩ | ⟨-, -, rfl, -⟩ <;> simpa using hmem
      exact ⟨p, name, f, hf, hf2, hloc, hsigned name f hf2 hext⟩
  · intro fs c hok
    rcases uploadImageHandler_cases env fs c with ⟨hbad, -⟩ |
      ⟨reqPath, name, f, p, fs1, calls1, -, hf, hext, hf2, -, hcase, heq⟩
    · exact absurd hok hbad
    · rw [heq] at hok ⊢
      exact ⟨f, ((uploadImageSave_resp fs1 calls1 c.hostname p f).2.2.1 hok).1,
        hsigned name f hf2 hext⟩

/-! ### Ensuring the directory of an upload -/

set_option maxRecDepth 20000 in
/-- C8 fails on the code for the default sub-path.  Where the field `path` is
empty or `images` (`files` for a file upload), the handlers make one system
call, `SaveFile`: the call of `MkdirAll` stands inside the branch for a
sub-path other than the default.  On the filesystem that `init` leaves, which
holds the two roots and no `storage/images/images`, the upload of `a.png`
without a `path` field is answered with 500 "unable to upload image", for lack
of the parent directory, and the upload to `/upload_file` likewise; the same
upload to the sub-path `custom` makes the directory first and succeeds. -/
theorem C8_default_subpath_not_ensured :
    (∀ (env : Env) (fs : FS) (c : UploadCtx) (name : Str),
      (c.body = some [] ∨ c.body = some "images".toList) → c.formFile "image" = some name →
      Ext name ∈ [".png".toList, ".jpg".toList, ".gif".toList, ".jpeg".toList] →
      ∃ f, qassetSignature env name = some f ∧
        (uploadImageHandler env fs c).calls = [.saveFile (Join [imageDir, "images".toList, f])]) ∧
    (∀ (env : Env) (fs : FS) (c : UploadCtx) (name : Str),
      (c.body = some [] ∨ c.body = some "files".toList) → c.formFile "file" = some name →
      ∃ f, qassetSignature env name = some f ∧
        (uploadFileHandler env fs c).calls = [.saveFile (Join [fileDir, "files".toList, f])]) ∧
    (init ⟨[], []⟩).dirs = ["storage/files".toList, "storage/images".toList, "storage".toList] ∧
    (init ⟨[], []⟩).files = [] ∧
    (uploadImageHandler ⟨.w64, 5, fun _ => 0⟩ (init ⟨[], []⟩)
        ⟨some [], fun _ => some "a.png".toList, "host".toList⟩).resp =
      { status := 500, success := false, message := "unable to upload image",
        debug := some
          "open storage/images/images/cdn-5aaaaaaa-a.png: no such file or directory".toList } ∧
    (uploadImageHandler ⟨.w64, 5, fun _ => 0⟩ (init ⟨[], []⟩)
        ⟨some [], fun _ => some "a.png".toList, "host".toList⟩).calls =
      [.saveFile "storage/images/images/cdn-5aaaaaaa-a.png".toList] ∧
    (uploadFileHandler ⟨.w64, 5, fun _ => 0⟩ (init ⟨[], []⟩)
        ⟨some [], fun _ => some "a.png".toList, "host".toList⟩).resp =
      { status := 500, success := false, message := "unable to upload file",
        debug := some
          "open storage/files/files/cdn-5aaaaaaa-a.png: no such file or directory".toList } ∧
    (uploadImageHandler ⟨.w64, 5, fun _ => 0⟩ (init ⟨[], []⟩)
        ⟨some "custom".toList, fun _ => some "a.png".toList, "host".toList⟩).resp.status = 200 ∧
    (uploadImageHandler ⟨.w64, 5, fun _ => 0⟩ (init ⟨[], []⟩)
        ⟨some "custom".toList, fun _ => some "a.png".toList, "host".toList⟩).calls =
      [.mkdirAll "storage/images/custom".toList,
        .saveFile "storage/images/custom/cdn-5aaaaaaa-a.png".toList] := by
  refine ⟨?_, ?_, by decide, by decide, by decide, by decide, by decide, by decide, by decide⟩
  · intro env fs c name hb hf hext
    obtain ⟨front, -, -, hsig⟩ := qassetSignature_front env
    have hext2 := (contains_iff_mem _ _).mpr hext
    refine ⟨front ++ name, hsig name, ?_⟩
    rcases hb with hb | hb
    · simp only [uploadImageHandler, hb, hf, hext2, hsig, if_true, ne_eq, not_true_eq_false,
        Bool.not_true, Bool.false_eq_true, if_false]
      exact (uploadImageSave_resp _ _ _ _ _).2.1
    · have h1 : (if "images".toList = [] then "images".toList else "images".toList) =
          "images".toList := by decide
      simp only [uploadImageHandler, hb, hf, hext2, hsig, h1, ne_eq, not_true_eq_false,
        Bool.not_true, Bool.false_eq_true, if_false]
      exact (uploadImageSave_resp _ _ _ _ _).2.1
  · intro env fs c name hb hf
    obtain ⟨front, -, -, hsig⟩ := qassetSignature_front env
    refine ⟨front ++ name, hsig name, ?_⟩
    rcases hb with hb | hb
    · simp only [uploadFileHandler, hb, hf, hsig, if_true, ne_eq, not_true_eq_false,
        Bool.not_true, Bool.false_eq_true, if_false]
      exact (uploadFileSave_resp _ _ _ _ _).2.1
    · have h1 : (if "files".toList = [] then "files".toList else "files".toList) =
          "files".toList := by decide
      simp only [uploadFileHandler, hb, hf, hsig, h1, ne_eq, not_true_eq_false,
        Bool.not_true, Bool.false_eq_true, if_false]
      exact (uploadFileSave_resp _ _ _ _ _).2.1

/-! ### Fuel -/

/-- The fuel of `cleanLoop` is never exhausted: any amount of at least one unit
per unread byte gives the same result. -/
theorem cleanLoop_fuel (rooted : Bool) (fuel : Nat) (path : Str) (st : Str × Nat)
    (h : path.length ≤ fuel) :
    cleanLoop rooted fuel path st = cleanLoop rooted path.length path st := by
  rw [cleanLoop_eq_foldl rooted fuel path st h,
    cleanLoop_eq_foldl rooted path.length path st (Nat.le_refl _)]

theorem parentOf_length (p : Str) (h : 0 < (parentOf p).length) :
    (parentOf p).length < p.length := by
  unfold parentOf at h ⊢
  simp only [List.length_reverse, List.length_tail] at h ⊢
  have h1 := length_dropWhile_le (fun x => !isPathSeparator x)
    (p.reverse.dropWhile isPathSeparator)
  have h2 := length_dropWhile_le isPathSeparator p.reverse
  simp only [List.length_reverse] at h2
  omega

/-- The fuel of `mkdirAllLoop` is never exhausted: any amount above the length
of the path gives the same result. -/
theorem mkdirAllLoop_fuel (f1 : Nat) :
    ∀ (f2 : Nat) (fs : FS) (p : Str), p.length < f1 → p.length < f2 →
      mkdirAllLoop f1 fs p = mkdirAllLoop f2 fs p := by
  induction f1 with
  | zero => intro f2 fs p h; omega
  | succ n ih =>
    intro f2 fs p h1 h2
    cases f2 with
    | zero => omega
    | succ m =>
      simp only [mkdirAllLoop]
      by_cases hpar : 0 < (parentOf p).length
      · have hlt := parentOf_length p hpar
        rw [ih m fs (parentOf p) (by omega) (by omega)]
      · simp only [hpar, if_false]

/-! ### Names as `c.FormFile` delivers them -/

/-- A base name is the separator alone or has no separator in it. -/
theorem Base_shape (path : Str) : Base path = ['/'] ∨ ∀ ch ∈ Base path, ch ≠ '/' := by
  unfold Base
  split
  · right; decide
  · simp only
    split
    · left; rfl
    · right
      intro ch hch
      rw [List.mem_reverse] at hch
      have := List.mem_takeWhile_imp hch
      intro h
      subst h
      simp [isPathSeparator] at this

/-- No element after the first of a name that `c.FormFile` delivers is `..`:
the name is a base name. -/
theorem formFile_no_dotdot (c : UploadCtx) (key : String) (name : Str)
    (h : c.formFile key = some name) : ∀ e ∈ (splitSep name).tail, e ≠ ['.', '.'] := by
  unfold UploadCtx.formFile at h
  cases hs : c.sentName key with
  | none => simp [hs] at h
  | some sent =>
    simp only [hs] at h
    split at h
    · exact absurd h (by simp)
    · have hname : name = Base sent := (Option.some.inj h).symm
      subst hname
      rcases Base_shape sent with hb | hb
      · rw [hb]; decide
      · rw [splitSep_plain _ hb]; simp

/-- With a parsed form, the field `image` present, an allowed extension, and a
sub-path that is the default or that the validator accepts and `MkdirAll`
makes, `uploadImageHandler` goes on to the save step. -/
theorem uploadImageHandler_reach (env : Env) (fs fs1 : FS) (c : UploadCtx)
    (reqPath name f : Str) (hb : c.body = some reqPath) (hf : c.formFile "image" = some name)
    (hext : Ext name ∈ [".png".toList, ".jpg".toList, ".gif".toList, ".jpeg".toList])
    (hsig : qassetSignature env name = some f)
    (hcase : ((if reqPath = [] then "images".toList else reqPath) = "images".toList ∧ fs1 = fs) ∨
      ((if reqPath = [] then "images".toList else reqPath) ≠ "images".toList ∧
        MatchString pathRegex (if reqPath = [] then "images".toList else reqPath) = true ∧
        MkdirAll fs (Join [imageDir, if reqPath = [] then "images".toList else reqPath]) =
          .ok fs1)) :
    ∃ calls1 : List SysCall, (∀ loc, SysCall.saveFile loc ∉ calls1) ∧
      uploadImageHandler env fs c =
        uploadImageSave fs1 calls1 c.hostname (if reqPath = [] then "images".toList else reqPath)
          f := by
  have hext2 := (contains_iff_mem _ _).mpr hext
  rcases hcase with ⟨hp, rfl⟩ | ⟨hp, hm, hmk⟩
  · refine ⟨[], by simp, ?_⟩
    simp only [uploadImageHandler, hb, hf, hext2, hsig, hp]
    simp
  · refine ⟨[.mkdirAll (Join [imageDir, if reqPath = [] then "images".toList else reqPath])],
      by simp, ?_⟩
    simp only [uploadImageHandler, hb, hf, hext2, hsig, ne_eq, hp, hm, hmk,
      not_false_eq_true, if_true, Bool.not_true, Bool.false_eq_true, if_false]

/-- With a parsed form, the field `file` present, and a sub-path that is the
default or that the validator accepts and `MkdirAll` makes, `uploadFileHandler`
goes on to the save step. -/
theorem uploadFileHandler_reach (env : Env) (fs fs1 : FS) (c : UploadCtx)
    (reqPath name f : Str) (hb : c.body = some reqPath) (hf : c.formFile "file" = some name)
    (hsig : qassetSignature env name = some f)
    (hcase : ((if reqPath = [] then "files".toList else reqPath) = "files".toList ∧ fs1 = fs) ∨
      ((if reqPath = [] then "files".toList else reqPath) ≠ "files".toList ∧
        MatchString pathRegex (if reqPath = [] then "files".toList else reqPath) = true ∧
        MkdirAll fs (Join [fileDir, if reqPath = [] then "files".toList else reqPath]) =
          .ok fs1)) :
    ∃ calls1 : List SysCall, (∀ loc, SysCall.saveFile loc ∉ calls1) ∧
      uploadFileHandler env fs c =
        uploadFileSave fs1 calls1 c.hostname (if reqPath = [] then "files".toList else reqPath)
          f := by
  rcases hcase with ⟨hp, rfl⟩ | ⟨hp, hm, hmk⟩
  · refine ⟨[], by simp, ?_⟩
    simp only [uploadFileHandler, hb, hf, hsig, hp]
    simp
  · refine ⟨[.mkdirAll (Join [fileDir, if reqPath = [] then "files".toList else reqPath])],
      by simp, ?_⟩
    simp only [uploadFileHandler, hb, hf, hsig, ne_eq, hp, hm, hmk,
      not_false_eq_true, if_true, Bool.not_true, Bool.false_eq_true, if_false]

theorem uploadImageSave_ok (fs fs2 : FS) (calls : List SysCall) (host p f : Str)
    (h : SaveFile fs (Join [imageDir, p, f]) = .ok fs2) :
    (uploadImageSave fs calls host p f).resp.status = 200 ∧
      (uploadImageSave fs calls host p f).fs = fs2 := by
  simp [uploadImageSave, h]

theorem uploadFileSave_ok (fs fs2 : FS) (calls : List SysCall) (host p f : Str)
    (h : SaveFile fs (Join [fileDir, p, f]) = .ok fs2) :
    (uploadFileSave fs calls host p f).resp.status = 200 ∧
      (uploadFileSave fs calls host p f).fs = fs2 := by
  simp [uploadFileSave, h]

/-! ### Every saved location lies inside its root -/

/-- C3. Every stored asset lies strictly inside its category root.  For every
upload, of an image or of a file, with any file name sent (names with
separators or `..` segments included), any clock and any random source, every
location at which the handler calls `SaveFile` is
`Join(root, subpath, qassetSignature(original))`, where `original` is the
name `c.FormFile` delivers, kept unchanged behind the signature, and `subpath`
is the field `path` or the default; and that location is the root, a
separator, and then real path elements only.  The save step is reached
whenever the form parses, the file field is present (with an allowed
extension, for an image) and the sub-path is the default or one that the
validator accepts and `MkdirAll` makes. -/
theorem C3_saved_path_strictly_inside (env : Env) (fs : FS) (c : UploadCtx) :
    (∀ loc, SysCall.saveFile loc ∈ (uploadImageHandler env fs c).calls →
      (∃ reqPath name f : Str, c.body = some reqPath ∧ c.formFile "image" = some name ∧
        qassetSignature env name = some f ∧ (∃ front, f = front ++ name) ∧
        loc = Join [imageDir, if reqPath = [] then "images".toList else reqPath, f]) ∧
      strictlyInside imageDir loc = true) ∧
    (∀ loc, SysCall.saveFile loc ∈ (uploadFileHandler env fs c).calls →
      (∃ reqPath name f : Str, c.body = some reqPath ∧ c.formFile "file" = some name ∧
        qassetSignature env name = some f ∧ (∃ front, f = front ++ name) ∧
        loc = Join [fileDir, if reqPath = [] then "files".toList else reqPath, f]) ∧
      strictlyInside fileDir loc = true) ∧
    (∀ (reqPath name : Str) (fs1 : FS), c.body = some reqPath →
      c.formFile "image" = some name →
      Ext name ∈ [".png".toList, ".jpg".toList, ".gif".toList, ".jpeg".toList] →
      (((if reqPath = [] then "images".toList else reqPath) = "images".toList ∧ fs1 = fs) ∨
        ((if reqPath = [] then "images".toList else reqPath) ≠ "images".toList ∧
          MatchString pathRegex (if reqPath = [] then "images".toList else reqPath) = true ∧
          MkdirAll fs (Join [imageDir, if reqPath = [] then "images".toList else reqPath]) =
            .ok fs1)) →
      ∃ loc, SysCall.saveFile loc ∈ (uploadImageHandler env fs c).calls) ∧
    (∀ (reqPath name : Str) (fs1 : FS), c.body = some reqPath →
      c.formFile "file" = some name →
      (((if reqPath = [] then "files".toList else reqPath) = "files".toList ∧ fs1 = fs) ∨
        ((if reqPath = [] then "files".toList else reqPath) ≠ "files".toList ∧
          MatchString pathRegex (if reqPath = [] then "files".toList else reqPath) = true ∧
          MkdirAll fs (Join [fileDir, if reqPath = [] then "files".toList else reqPath]) =
            .ok fs1)) →
      ∃ loc, SysCall.saveFile loc ∈ (uploadFileHandler env fs c).calls) := by
  obtain ⟨front, hfront, hplain, hsig⟩ := qassetSignature_front env
  refine ⟨?_, ?_, ?_, ?_⟩
  · intro loc hmem
    rcases uploadImageHandler_cases env fs c with ⟨-, hno⟩ |
      ⟨reqPath, name, f, p, fs1, calls1, hb, hf, -, hf2, hpdef, hcase, heq⟩
    · exact absurd hmem (hno loc)
    · rw [heq, (uploadImageSave_resp fs1 calls1 c.hostname p f).2.1] at hmem
      have hacc : MatchString pathRegex p = true := by
        rcases hcase with ⟨rfl, -, -⟩ | ⟨-, h, -, -⟩
        · decide
        · exact h
      have hloc : loc = Join [imageDir, p, f] := by
        rcases hcase with ⟨-, rfl, -⟩ | ⟨-, -, rfl, -⟩ <;> simpa using hmem
      have hfeq : f = front ++ name := by
        rw [hsig name] at hf2; exact (Option.some.inj hf2).symm
      refine ⟨⟨reqPath, name, f, hb, hf, hf2, ⟨front, hfeq⟩, by rw [hloc, hpdef]⟩, ?_⟩
      rw [hloc, hfeq]
      exact save_location_inside imageDir p front name (by decide) (by decide) imageDir_clean
        hacc hfront hplain (formFile_no_dotdot c "image" name hf)
  · intro loc hmem
    rcases uploadFileHandler_cases env fs c with ⟨-, hno⟩ |
      ⟨reqPath, name, f, p, fs1, calls1, hb, hf, hf2, hpdef, hcase, heq⟩
    · exact absurd hmem (hno loc)
    · rw [heq, (uploadFileSave_resp fs1 calls1 c.hostname p f).2.1] at hmem
      have hacc : MatchString pathRegex p = true := by
        rcases hcase with ⟨rfl, -, -⟩ | ⟨-, h, -, -⟩
        · decide
        · exact h
      have hloc : loc = Join [fileDir, p, f] := by
        rcases hcase with ⟨-, rfl, -⟩ | ⟨-, -, rfl, -⟩ <;> simpa using hmem
      have hfeq : f = front ++ name := by
        rw [hsig name] at hf2; exact (Option.some.inj hf2).symm
      refine ⟨⟨reqPath, name, f, hb, hf, hf2, ⟨front, hfeq⟩, by rw [hloc, hpdef]⟩, ?_⟩
      rw [hloc, hfeq]
      exact save_location_inside fileDir p front name (by decide) (by decide) fileDir_clean
        hacc hfront hplain (formFile_no_dotdot c "file" name hf)
  · intro reqPath name fs1 hb hf hext hcase
    obtain ⟨calls1, -, heq⟩ :=
      uploadImageHandler_reach env fs fs1 c reqPath name (front ++ name) hb hf hext (hsig name)
        hcase
    refine ⟨Join [imageDir, if reqPath = [] then "images".toList else reqPath, front ++ name],
      ?_⟩
    rw [heq, (uploadImageSave_resp _ _ _ _ _).2.1]
    exact List.mem_append_right _ (List.mem_singleton.mpr rfl)
  · intro reqPath name fs1 hb hf hcase
    obtain ⟨calls1, -, heq⟩ :=
      uploadFileHandler_reach env fs fs1 c reqPath name (front ++ name) hb hf (hsig name) hcase
    refine ⟨Join [fileDir, if reqPath = [] then "files".toList else reqPath, front ++ name],
      ?_⟩
    rw [heq, (uploadFileSave_resp _ _ _ _ _).2.1]
    exact List.mem_append_right _ (List.mem_singleton.mpr rfl)

set_option maxRecDepth 20000 in
/-- C3 at the sent name `a/../../../evil.png`, for an image sent to the default
sub-path and a file sent to the sub-path `x/y`, on the filesystem that `init`
leaves: both handlers call `SaveFile`, under the name `cdn-5aaaaaaa-evil.png`,
inside their roots. -/
theorem C3_saved_path_strictly_inside_witness :
    (SysCall.saveFile "storage/images/images/cdn-5aaaaaaa-evil.png".toList ∈
        (uploadImageHandler ⟨.w64, 5, fun _ => 0⟩ (init ⟨[], []⟩)
          ⟨some [], fun _ => some "a/../../../evil.png".toList, []⟩).calls ∧
      strictlyInside imageDir "storage/images/images/cdn-5aaaaaaa-evil.png".toList = true) ∧
    (SysCall.saveFile "storage/files/x/y/cdn-5aaaaaaa-evil.png".toList ∈
        (uploadFileHandler ⟨.w64, 5, fun _ => 0⟩ (init ⟨[], []⟩)
          ⟨some "x/y".toList, fun _ => some "a/../../../evil.png".toList, []⟩).calls ∧
      strictlyInside fileDir "storage/files/x/y/cdn-5aaaaaaa-evil.png".toList = true) := by
  have h1 : SysCall.saveFile "storage/images/images/cdn-5aaaaaaa-evil.png".toList ∈
      (uploadImageHandler ⟨.w64, 5, fun _ => 0⟩ (init ⟨[], []⟩)
        ⟨some [], fun _ => some "a/../../../evil.png".toList, []⟩).calls := by decide
  have h2 : SysCall.saveFile "storage/files/x/y/cdn-5aaaaaaa-evil.png".toList ∈
      (uploadFileHandler ⟨.w64, 5, fun _ => 0⟩ (init ⟨[], []⟩)
        ⟨some "x/y".toList, fun _ => some "a/../../../evil.png".toList, []⟩).calls := by decide
  exact ⟨⟨h1, ((C3_saved_path_strictly_inside _ _ _).1 _ h1).2⟩,
    ⟨h2, ((C3_saved_path_strictly_inside _ _ _).2.1 _ h2).2⟩⟩

/-! ### One location for upload, address, resolver and delete: the statement -/

/-- C9. Upload, address, resolver and delete name one location.  When an
upload is answered with 200, its effective sub-path `p` is the field `path` of
the request, or the default if that is empty, and is the default or accepted by
the validator; the signed name `f` is `qassetSignature` of the name
`c.FormFile` delivers; the answer carries `f` as `filename` and
`http://<host>/<p>/<f>` as `url`; the file was saved at `Join(root, p, f)`; the
location the resolver looks up for the path `/<p>/<f>` of that address is the
same, and the resolver serves it (for a file upload: unless something stands
at that path under the images root); and a delete request with path `p` and
filename `f` removes that location and nothing else, after which it is no
longer a regular file.  Uploads are answered with 200 exactly as expected: when
the form parses, the file field is present (with an allowed extension, for an
image), the sub-path is the default or one that the validator accepts and
`MkdirAll` makes, and `SaveFile` succeeds. -/
theorem C9_upload_url_resolver_delete_agree (env : Env) (fs : FS) (c : UploadCtx) :
    ((uploadImageHandler env fs c).resp.status = 200 →
      ∃ reqPath name f p : Str, c.body = some reqPath ∧
        p = (if reqPath = [] then "images".toList else reqPath) ∧
        (p = "images".toList ∨ MatchString pathRegex p = true) ∧
        c.formFile "image" = some name ∧ qassetSignature env name = some f ∧
        (uploadImageHandler env fs c).resp.filename = some f ∧
        (uploadImageHandler env fs c).resp.url =
          some ("http://".toList ++ c.hostname ++ "/".toList ++ p ++ "/".toList ++ f) ∧
        SysCall.saveFile (Join [imageDir, p, f]) ∈ (uploadImageHandler env fs c).calls ∧
        (uploadImageHandler env fs c).fs.isFile (Join [imageDir, p, f]) = true ∧
        Join [imageDir, "/".toList ++ p ++ "/".toList ++ f] = Join [imageDir, p, f] ∧
        genericHandler (uploadImageHandler env fs c).fs ("/".toList ++ p ++ "/".toList ++ f) =
          Join [imageDir, p, f] ∧
        (∀ fs2 : FS, (deleteImageHandler fs2 ⟨some (p, f)⟩).calls =
          [.remove (Join [imageDir, p, f])]) ∧
        (deleteImageHandler (uploadImageHandler env fs c).fs ⟨some (p, f)⟩).resp.status = 200 ∧
        (deleteImageHandler (uploadImageHandler env fs c).fs ⟨some (p, f)⟩).fs.isFile
          (Join [imageDir, p, f]) = false) ∧
    ((uploadFileHandler env fs c).resp.status = 200 →
      ∃ reqPath name f p : Str, c.body = some reqPath ∧
        p = (if reqPath = [] then "files".toList else reqPath) ∧
        (p = "files".toList ∨ MatchString pathRegex p = true) ∧
        c.formFile "file" = some name ∧ qassetSignature env name = some f ∧
        (uploadFileHandler env fs c).resp.filename = some f ∧
        (uploadFileHandler env fs c).resp.url =
          some ("http://".toList ++ c.hostname ++ "/".toList ++ p ++ "/".toList ++ f) ∧
        SysCall.saveFile (Join [fileDir, p, f]) ∈ (uploadFileHandler env fs c).calls ∧
        (uploadFileHandler env fs c).fs.isFile (Join [fileDir, p, f]) = true ∧
        Join [fileDir, "/".toList ++ p ++ "/".toList ++ f] = Join [fileDir, p, f] ∧
        ((uploadFileHandler env fs c).fs.isDir (Join [imageDir, p, f]) = false →
          (uploadFileHandler env fs c).fs.isFile (Join [imageDir, p, f]) = false →
          genericHandler (uploadFileHandler env fs c).fs ("/".toList ++ p ++ "/".toList ++ f) =
            Join [fileDir, p, f]) ∧
        (∀ fs2 : FS, (deleteFileHandler fs2 ⟨some (p, f)⟩).calls =
          [.remove (Join [fileDir, p, f])]) ∧
        (deleteFileHandler (uploadFileHandler env fs c).fs ⟨some (p, f)⟩).resp.status = 200 ∧
        (deleteFileHandler (uploadFileHandler env fs c).fs ⟨some (p, f)⟩).fs.isFile
          (Join [fileDir, p, f]) = false) ∧
    (∀ (reqPath name f p : Str) (fs1 fs2 : FS), c.body = some reqPath →
      p = (if reqPath = [] then "images".toList else reqPath) →
      c.formFile "image" = some name →
      Ext name ∈ [".png".toList, ".jpg".toList, ".gif".toList, ".jpeg".toList] →
      qassetSignature env name = some f →
      ((p = "images".toList ∧ fs1 = fs) ∨
        (p ≠ "images".toList ∧ MatchString pathRegex p = true ∧
          MkdirAll fs (Join [imageDir, p]) = .ok fs1)) →
      SaveFile fs1 (Join [imageDir, p, f]) = .ok fs2 →
      (uploadImageHandler env fs c).resp.status = 200 ∧ (uploadImageHandler env fs c).fs = fs2) ∧
    (∀ (reqPath name f p : Str) (fs1 fs2 : FS), c.body = some reqPath →
      p = (if reqPath = [] then "files".toList else reqPath) →
      c.formFile "file" = some name →
      qassetSignature env name = some f →
      ((p = "files".toList ∧ fs1 = fs) ∨
        (p ≠ "files".toList ∧ MatchString pathRegex p = true ∧
          MkdirAll fs (Join [fileDir, p]) = .ok fs1)) →
      SaveFile fs1 (Join [fileDir, p, f]) = .ok fs2 →
      (uploadFileHandler env fs c).resp.status = 200 ∧ (uploadFileHandler env fs c).fs = fs2) := by
  obtain ⟨front, hfront, -, hsig⟩ := qassetSignature_front env
  have hfne : ∀ name f, qassetSignature env name = some f → f ≠ [] := by
    intro name f h
    rw [hsig name] at h
    have := Option.some.inj h
    subst this
    cases front with
    | nil => simp at hfront
    | cons a t => simp
  refine ⟨?_, ?_, ?_, ?_⟩
  · intro hok
    rcases uploadImageHandler_cases env fs c with ⟨hbad, -⟩ |
      ⟨reqPath, name, f, p, fs1, calls1, hb, hf, -, hf2, hpdef, hcase, heq⟩
    · exact absurd hok hbad
    · have hpne : p ≠ [] := by
        rw [hpdef]; split_ifs with h0
        · decide
        · exact h0
      obtain ⟨-, hcalls, hsucc, -⟩ := uploadImageSave_resp fs1 calls1 c.hostname p f
      rw [heq] at hok ⊢
      obtain ⟨hname, hurl, hsave⟩ := hsucc hok
      have hfile := SaveFile_ok_isFile _ _ _ hsave
      have hjoin := Join_url_path imageDir p f (by decide) (by decide)
      refine ⟨reqPath, name, f, p, hb, hpdef, ?_, hf, hf2, hname, ?_, ?_, hfile, hjoin,
        ?_, ?_, ?_⟩
      · rcases hcase with ⟨h, -, -⟩ | ⟨-, h, -, -⟩
        · exact Or.inl h
        · exact Or.inr h
      · rw [hurl]; simp [formatUrl]
      · rw [hcalls]; simp
      · rw [genericHandler_of_image _ _ (Or.inr (by rw [hjoin]; exact hfile)), hjoin]
      · intro fs2
        exact (deleteImageHandler_calls fs2 p f hpne (hfne name f hf2)).2
      · exact deleteImageHandler_after_save _ p f hpne (hfne name f hf2) hfile
  · intro hok
    rcases uploadFileHandler_cases env fs c with ⟨hbad, -⟩ |
      ⟨reqPath, name, f, p, fs1, calls1, hb, hf, hf2, hpdef, hcase, heq⟩
    · exact absurd hok hbad
    · have hpne : p ≠ [] := by
        rw [hpdef]; split_ifs with h0
        · decide
        · exact h0
      obtain ⟨-, hcalls, hsucc, -⟩ := uploadFileSave_resp fs1 calls1 c.hostname p f
      rw [heq] at hok ⊢
      obtain ⟨hname, hurl, hsave⟩ := hsucc hok
      have hfile := SaveFile_ok_isFile _ _ _ hsave
      have hjoin := Join_url_path fileDir p f (by decide) (by decide)
      have hjoin2 := Join_url_path imageDir p f (by decide) (by decide)
      refine ⟨reqPath, name, f, p, hb, hpdef, ?_, hf, hf2, hname, ?_, ?_, hfile, hjoin,
        ?_, ?_, ?_⟩
      · rcases hcase with ⟨h, -, -⟩ | ⟨-, h, -, -⟩
        · exact Or.inl h
        · exact Or.inr h
      · rw [hurl]; simp [formatUrl]
      · rw [hcalls]; simp
      · intro h1 h2
        rw [genericHandler_of_not_image _ _ (by rw [hjoin2]; exact h1)
          (by rw [hjoin2]; exact h2), if_pos (Or.inr (by rw [hjoin]; exact hfile)), hjoin]
      · intro fs2
        exact (deleteFileHandler_calls fs2 p f hpne (hfne name f hf2)).2
      · exact deleteFileHandler_after_save _ p f hpne (hfne name f hf2) hfile
  · intro reqPath name f p fs1 fs2 hb hp hf hext hf2 hcase hsave
    subst hp
    obtain ⟨calls1, -, heq⟩ :=
      uploadImageHandler_reach env fs fs1 c reqPath name f hb hf hext hf2 hcase
    rw [heq]
    exact uploadImageSave_ok fs1 fs2 calls1 c.hostname _ f hsave
  · intro reqPath name f p fs1 fs2 hb hp hf hf2 hcase hsave
    subst hp
    obtain ⟨calls1, -, heq⟩ :=
      uploadFileHandler_reach env fs fs1 c reqPath name f hb hf hf2 hcase
    rw [heq]
    exact uploadFileSave_ok fs1 fs2 calls1 c.hostname _ f hsave

set_option maxRecDepth 20000 in
/-- C9 at uploads of `a.png` to the sub-path `custom`, as an image and as a
file, on the filesystem that `init` leaves: both are answered with 200, so the
premises of C9 hold there, and each answer names a sub-path and a signed name
whose address, save location and delete location agree. -/
theorem C9_upload_url_resolver_delete_agree_witness :
    ((uploadImageHandler ⟨.w64, 5, fun _ => 0⟩ (init ⟨[], []⟩)
        ⟨some "custom".toList, fun _ => some "a.png".toList, "host".toList⟩).resp.status = 200 ∧
      ∃ p f : Str,
        (uploadImageHandler ⟨.w64, 5, fun _ => 0⟩ (init ⟨[], []⟩)
          ⟨some "custom".toList, fun _ => some "a.png".toList, "host".toList⟩).resp.url =
          some ("http://".toList ++ "host".toList ++ "/".toList ++ p ++ "/".toList ++ f) ∧
        genericHandler (uploadImageHandler ⟨.w64, 5, fun _ => 0⟩ (init ⟨[], []⟩)
          ⟨some "custom".toList, fun _ => some "a.png".toList, "host".toList⟩).fs
            ("/".toList ++ p ++ "/".toList ++ f) = Join [imageDir, p, f] ∧
        (deleteImageHandler (uploadImageHandler ⟨.w64, 5, fun _ => 0⟩ (init ⟨[], []⟩)
          ⟨some "custom".toList, fun _ => some "a.png".toList, "host".toList⟩).fs
            ⟨some (p, f)⟩).resp.status = 200) ∧
    ((uploadFileHandler ⟨.w64, 5, fun _ => 0⟩ (init ⟨[], []⟩)
        ⟨some "custom".toList, fun _ => some "a.png".toList, "host".toList⟩).resp.status = 200 ∧
      ∃ p f : Str,
        (uploadFileHandler ⟨.w64, 5, fun _ => 0⟩ (init ⟨[], []⟩)
          ⟨some "custom".toList, fun _ => some "a.png".toList, "host".toList⟩).resp.url =
          some ("http://".toList ++ "host".toList ++ "/".toList ++ p ++ "/".toList ++ f) ∧
        SysCall.saveFile (Join [fileDir, p, f]) ∈
          (uploadFileHandler ⟨.w64, 5, fun _ => 0⟩ (init ⟨[], []⟩)
            ⟨some "custom".toList, fun _ => some "a.png".toList, "host".toList⟩).calls ∧
        Join [fileDir, "/".toList ++ p ++ "/".toList ++ f] = Join [fileDir, p, f] ∧
        (deleteFileHandler (uploadFileHandler ⟨.w64, 5, fun _ => 0⟩ (init ⟨[], []⟩)
          ⟨some "custom".toList, fun _ => some "a.png".toList, "host".toList⟩).fs
            ⟨some (p, f)⟩).resp.status = 200) := by
  have hokI : (uploadImageHandler ⟨.w64, 5, fun _ => 0⟩ (init ⟨[], []⟩)
      ⟨some "custom".toList, fun _ => some "a.png".toList, "host".toList⟩).resp.status = 200 := by
    decide
  have hokF : (uploadFileHandler ⟨.w64, 5, fun _ => 0⟩ (init ⟨[], []⟩)
      ⟨some "custom".toList, fun _ => some "a.png".toList, "host".toList⟩).resp.status = 200 := by
    decide
  obtain ⟨-, -, f, p, -, -, -, -, -, -, hurl, -, -, -, hgen, -, hdel, -⟩ :=
    (C9_upload_url_resolver_delete_agree ⟨.w64, 5, fun _ => 0⟩ (init ⟨[], []⟩)
      ⟨some "custom".toList, fun _ => some "a.png".toList, "host".toList⟩).1 hokI
  obtain ⟨-, -, f2, p2, -, -, -, -, -, -, hurl2, hsave2, -, hjoin2, -, -, hdel2, -⟩ :=
    (C9_upload_url_resolver_delete_agree ⟨.w64, 5, fun _ => 0⟩ (init ⟨[], []⟩)
      ⟨some "custom".toList, fun _ => some "a.png".toList, "host".toList⟩).2.1 hokF
  exact ⟨⟨hokI, p, f, hurl, hgen, hdel⟩, ⟨hokF, p2, f2, hurl2, hsave2, hjoin2, hdel2⟩⟩

end QAsset
